import Mathlib

/-!
# SVFIRRW: pointer pools and the generic graph writer

A shallow embedding of `svf/include/SVFIR/SVFIRRW.h`:

* `PtrPool<T>`            (`getID`, `saveID`, `getPtr`, `getPool`),
* `GenericGraphWriter<N, E>` (constructor, `getEdgeID`, `getNodeID`),
* `SVFIRWriter`           (`genericNodeToJson`, `genericGraphToJson`, the
  container `toJson`),

and of `nodeKindToString` in `svf-llvm/tools/DumpSVFG/dump-svfg.cpp`.

Pointers are addresses (`Nat`), the null pointer is address `0`.  The two
associative containers of the header (`Map`, an unordered map, and
`OrderedMap`) are only ever used through `find` and `emplace`, never iterated,
so both are embedded as one association list with exactly those two
operations.  `size_t` arithmetic is embedded in `Nat`: the only arithmetic is
`1 + ptrPool.size()`, and a `std::vector` of pointers cannot reach
`2^64 - 1` elements, so the addition never wraps.  A failed `assert` is an
`Except.error`.  A reference to a member of the writer (the vector
`getPool()` returns) is the function that reads that member off the state of
the writer.
-/

namespace SVF

/-! ## Pointers and faults -/

/-- A raw pointer value (`const T*`), as an address. -/
abbrev Ptr := Nat

/-- The null pointer. -/
def nullptr : Ptr := 0

/-- The ways the embedded code stops instead of returning. -/
inductive Fault where
  /-- The assertion `id >= 0 && id <= ptrPool.size()` ("Invalid ID.") failed. -/
  | invalidID
  /-- The assertion `it != nodeToID.end()` ("Node not found in the graph.") failed. -/
  | nodeNotFound
  /-- A node pointer that points at no node object was dereferenced. -/
  | badDeref
  /-- A range-based `for` over a `std::vector` went on after a `push_back` on
  that vector, which invalidates the iterators of the loop. -/
  | iteratorInvalidated
deriving DecidableEq, Repr

/-! ## `Map` / `OrderedMap`, through `find` and `emplace` -/

/-- An associative container, as the list of its (key, value) entries. -/
structure Map (K : Type) (V : Type) where
  entries : List (K × V)
deriving DecidableEq, Repr

/-- Lookup in an entry list: the value stored under `k`, if any. -/
def findEntries {K V : Type} [DecidableEq K] : List (K × V) → K → Option V
  | [], _ => none
  | (a, b) :: es, k => if a = k then some b else findEntries es k

/-- A default-constructed (empty) container. -/
def Map.empty {K V : Type} : Map K V := ⟨[]⟩

/-- The call `m.find(k)`: `some v` for an iterator at `(k, v)`, `none` for `m.end()`. -/
def Map.find {K V : Type} [DecidableEq K] (m : Map K V) (k : K) : Option V :=
  findEntries m.entries k

/-- The call `m.size()`. -/
def Map.size {K V : Type} (m : Map K V) : Nat := m.entries.length

/-- The call `m.emplace(k, v)`: when `k` is absent the pair is inserted, otherwise the
container is left as it is.  The result is the container afterwards, the
value at the returned iterator (`it->second`) and the `inserted` flag. -/
def Map.emplace {K V : Type} [DecidableEq K] (m : Map K V) (k : K) (v : V) :
    Map K V × V × Bool :=
  match m.find k with
  | some v0 => (m, v0, false)
  | none => (⟨(k, v) :: m.entries⟩, v, true)

/-! ## `PtrPool<T>` -/

/-- The two private members of `PtrPool<T>`. -/
structure PtrPool where
  ptrToId : Map Ptr Nat
  ptrPool : List Ptr
deriving DecidableEq, Repr

/-- A default-constructed pool. -/
def PtrPool.empty : PtrPool := ⟨Map.empty, []⟩

/-- Member `PtrPool::getID(ptr)`: the returned id and the pool afterwards. -/
def PtrPool.getID (s : PtrPool) (ptr : Ptr) : Nat × PtrPool :=
  if ptr = nullptr then (0, s)
  else
    let it_inserted := s.ptrToId.emplace ptr (1 + s.ptrPool.length)
    let s1 : PtrPool := { s with ptrToId := it_inserted.1 }
    let s2 : PtrPool :=
      if it_inserted.2.2 then { s1 with ptrPool := s1.ptrPool ++ [ptr] } else s1
    (it_inserted.2.1, s2)

/-- Member `PtrPool::saveID(ptr)`: `getID` with the id dropped. -/
def PtrPool.saveID (s : PtrPool) (ptr : Ptr) : PtrPool :=
  (s.getID ptr).2

/-- Member `PtrPool::getPtr(id)`: the assertion, then the indexed read. -/
def PtrPool.getPtr (s : PtrPool) (id : Nat) : Except Fault Ptr :=
  if h : id ≤ s.ptrPool.length then
    if h0 : id = 0 then .ok nullptr
    else
      have hb : id - 1 < s.ptrPool.length := by omega
      .ok s.ptrPool[id - 1]
  else .error Fault.invalidID

/-- Member `PtrPool::getPool()`. -/
def PtrPool.getPool (s : PtrPool) : List Ptr := s.ptrPool

/-- One call of a mutating member function of a pool. -/
inductive PoolCall where
  | getID (ptr : Ptr)
  | saveID (ptr : Ptr)
deriving DecidableEq, Repr

/-- The pool after one call. -/
def PtrPool.step (s : PtrPool) : PoolCall → PtrPool
  | .getID ptr => (s.getID ptr).2
  | .saveID ptr => s.saveID ptr

/-- The pool after a sequence of calls, first call first. -/
def PtrPool.run (s : PtrPool) (cs : List PoolCall) : PtrPool :=
  cs.foldl PtrPool.step s

/-- The pointer argument of a call. -/
def PoolCall.arg : PoolCall → Ptr
  | .getID ptr => ptr
  | .saveID ptr => ptr

/-- The states a `PtrPool` object can be in: its members are private, so a
pool is a default-constructed one on which `getID` / `saveID` were called. -/
def PtrPool.Reachable (s : PtrPool) : Prop :=
  ∃ cs : List PoolCall, PtrPool.empty.run cs = s

/-- The representation invariant of a pool: the map is the inverse of the
vector (the element at 0-based index `i` has id `i + 1`, and nothing else has
an id), the vector holds no null pointer, and the map has one entry per
element of the vector. -/
structure PtrPool.Inv (s : PtrPool) : Prop where
  find_iff : ∀ p k, s.ptrToId.find p = some k ↔ (1 ≤ k ∧ s.ptrPool[k - 1]? = some p)
  no_null : nullptr ∉ s.ptrPool
  size_eq : s.ptrToId.size = s.ptrPool.length

/-! ## `GenericGraph`, as far as the writer reads it -/

/-- A node id (`NodeID`). -/
abbrev NodeID := Nat

/-- The fields of a `GenericNode` the header reads (`genericNodeToJson` and
`getOutEdges`); an edge set is given as the sequence its iteration yields. -/
structure GenericNode where
  id : NodeID
  nodeKind : Int
  InEdges : List Ptr
  OutEdges : List Ptr
deriving DecidableEq, Repr

/-- The fields of a `GenericGraph` the header reads.  `IDToNodeMap` is given as
the sequence of entries its iteration yields; `memory` gives the node object
stored at an address, if there is one. -/
structure GenericGraph where
  IDToNodeMap : List (NodeID × Ptr)
  edgeNum : Nat
  nodeNum : Nat
  memory : Ptr → Option GenericNode

/-- Dereferencing a node pointer: the null pointer and an address that holds
no node have no object. -/
def GenericGraph.deref (g : GenericGraph) (node : Ptr) : Option GenericNode :=
  if node = nullptr then none else g.memory node

/-- The node pointers of the node collection, in iteration order. -/
def GenericGraph.nodes (g : GenericGraph) : List Ptr :=
  g.IDToNodeMap.map Prod.snd

/-- Every node pointer of the node collection points at a node object. -/
def GenericGraph.Valid (g : GenericGraph) : Prop :=
  ∀ node ∈ g.nodes, g.deref node ≠ none

/-! ## `GenericGraphWriter<NodeTy, EdgeTy>` -/

/-- The three private members of `GenericGraphWriter`. -/
structure GenericGraphWriter where
  graph : GenericGraph
  nodeToID : Map Ptr NodeID
  edgePool : PtrPool

/-- One iteration of the constructor's loop over `graph->IDToNodeMap`. -/
def GenericGraphWriter.visit (w : GenericGraphWriter) (entry : NodeID × Ptr) :
    Except Fault GenericGraphWriter :=
  let id := entry.1
  let node := entry.2
  let w1 : GenericGraphWriter := { w with nodeToID := (w.nodeToID.emplace node id).1 }
  match w.graph.deref node with
  | none => .error Fault.badDeref
  | some n => .ok { w1 with edgePool := n.OutEdges.foldl PtrPool.saveID w1.edgePool }

/-- The constructor's loop, from a given writer state. -/
def GenericGraphWriter.visitAll (w : GenericGraphWriter) :
    List (NodeID × Ptr) → Except Fault GenericGraphWriter
  | [] => .ok w
  | entry :: rest =>
    match w.visit entry with
    | .error e => .error e
    | .ok w1 => w1.visitAll rest

/-- The constructor `GenericGraphWriter::GenericGraphWriter(g)`. -/
def GenericGraphWriter.construct (g : GenericGraph) : Except Fault GenericGraphWriter :=
  GenericGraphWriter.visitAll ⟨g, Map.empty, PtrPool.empty⟩ g.IDToNodeMap

/-- Member `GenericGraphWriter::getEdgeID(edge)`: the id and the writer afterwards. -/
def GenericGraphWriter.getEdgeID (w : GenericGraphWriter) (edge : Ptr) :
    Nat × GenericGraphWriter :=
  let r := w.edgePool.getID edge
  (r.1, { w with edgePool := r.2 })

/-- Member `GenericGraphWriter::getNodeID(node)`: a strict lookup. -/
def GenericGraphWriter.getNodeID (w : GenericGraphWriter) (node : Ptr) :
    Except Fault NodeID :=
  match w.nodeToID.find node with
  | none => .error Fault.nodeNotFound
  | some id => .ok id

/-- The writer after a sequence of `getEdgeID` calls, first call first. -/
def GenericGraphWriter.afterEdgeIDs (w : GenericGraphWriter) (es : List Ptr) :
    GenericGraphWriter :=
  es.foldl (fun w1 e => (w1.getEdgeID e).2) w

/-- The node-to-id map the constructor's loop builds from `m` over the
entries `es`: the `emplace` calls alone. -/
def emplaceAll (m : Map Ptr NodeID) (es : List (NodeID × Ptr)) : Map Ptr NodeID :=
  es.foldl (fun m1 entry => (m1.emplace entry.2 entry.1).1) m

/-- The outgoing edges of the node a pointer points at (`node->getOutEdges()`),
none for a pointer without an object. -/
def GenericGraph.outEdgesOf (g : GenericGraph) (node : Ptr) : List Ptr :=
  match g.deref node with
  | some n => n.OutEdges
  | none => []

/-- The outgoing-edge lists of the given nodes, one after the other. -/
def GenericGraph.outEdgeWalk (g : GenericGraph) : List Ptr → List Ptr
  | [] => []
  | node :: rest => g.outEdgesOf node ++ g.outEdgeWalk rest

/-! ## Concrete graphs used as test inputs -/

/-- A pool after `getID(5)` and `saveID(7)`: ids 1 and 2 are assigned. -/
def samplePool : PtrPool :=
  PtrPool.empty.run [PoolCall.getID 5, PoolCall.saveID 7]

/-- A graph with nodes 100 (id 10) and 101 (id 11) and one edge 200 from the
first to the second. -/
def twoNodeGraph : GenericGraph where
  IDToNodeMap := [(10, 100), (11, 101)]
  edgeNum := 1
  nodeNum := 2
  memory := fun a =>
    if a = 100 then some ⟨10, 0, [], [200]⟩
    else if a = 101 then some ⟨11, 0, [200], []⟩
    else none

/-- The keys of an associative container. -/
def Map.keys {K V : Type} (m : Map K V) : List K := m.entries.map Prod.fst

/-- A sequence with every repeated occurrence after the first removed. -/
def firstOccurrences : List Ptr → List Ptr
  | [] => []
  | a :: l => a :: (firstOccurrences l).filter (fun b => decide (b ≠ a))

/-- A graph with the single node 101 (id 11) whose incoming-edge list holds
the edge 200, an edge that is in no outgoing-edge list of the collection (its
source node is not a node of this graph). -/
def inOnlyEdgeGraph : GenericGraph where
  IDToNodeMap := [(11, 101)]
  edgeNum := 1
  nodeNum := 1
  memory := fun a => if a = 101 then some ⟨11, 0, [200], []⟩ else none

/-- A graph with nodes 100 (id 10, outgoing edges 200 and 201) and 101
(id 11, outgoing edge 202, incoming edge 200). -/
def chainGraph : GenericGraph where
  IDToNodeMap := [(10, 100), (11, 101)]
  edgeNum := 3
  nodeNum := 2
  memory := fun a =>
    if a = 100 then some ⟨10, 0, [202], [200, 201]⟩
    else if a = 101 then some ⟨11, 0, [200], [202]⟩
    else none

/-- The pool with every pointer replaced by its image under a renaming. -/
def PtrPool.rename (ρ : Ptr → Ptr) (s : PtrPool) : PtrPool :=
  ⟨⟨s.ptrToId.entries.map (fun e => (ρ e.1, e.2))⟩, s.ptrPool.map ρ⟩

/-- A renaming of pointers that fixes null: every other address moves up by
100. -/
def shiftPtr (p : Ptr) : Ptr := if p = nullptr then nullptr else p + 100

/-- The two-node graph with its edge stored at address 300 instead of 200. -/
def twoNodeGraphMoved : GenericGraph where
  IDToNodeMap := [(10, 100), (11, 101)]
  edgeNum := 1
  nodeNum := 2
  memory := fun a =>
    if a = 100 then some ⟨10, 0, [], [300]⟩
    else if a = 101 then some ⟨11, 0, [300], []⟩
    else none

/-! ## The document tree and the encoders of `SVFIRWriter` -/

/-- Modelled from the spec: the document tree `cJSON`, whose declaration
(`Util/cJSON.h`) is not among the sources; "a tree of
object/array/string/number nodes". -/
inductive Json where
  | number (n : Int)
  | string (s : String)
  | array (items : List Json)
  | object (fields : List (String × Json))

/-- Modelled from the spec: `jsonCreateObject()`, declared in the header and
defined outside the sources; a new object has no fields. -/
def jsonCreateObject : Json := Json.object []

/-- Modelled from the spec: `jsonCreateArray()`, declared in the header and
defined outside the sources; a new array has no elements. -/
def jsonCreateArray : Json := Json.array []

/-- Modelled from the spec: `jsonAddItemToObject(obj, name, item)`, declared in
the header and defined outside the sources; the item becomes the last field
of the object, under the given name. -/
def jsonAddItemToObject (obj : Json) (name : String) (item : Json) : Json :=
  match obj with
  | Json.object fields => Json.object (fields ++ [(name, item)])
  | other => other

/-- Modelled from the spec: `jsonAddItemToArray(array, item)`, declared in the
header and defined outside the sources; the item becomes the last element of
the array. -/
def jsonAddItemToArray (array : Json) (item : Json) : Json :=
  match array with
  | Json.array items => Json.array (items ++ [item])
  | other => other

/-- Modelled from the spec: `toJson(unsigned number)`, declared in the header
and defined outside the sources; "fixed-width integers are encoded as numbers
without precision loss". -/
def toJsonNumber (number : Nat) : Json := Json.number number

/-- Modelled from the spec: `toJson(long long number)`, declared in the header
and defined outside the sources; "fixed-width integers are encoded as numbers
without precision loss". -/
def toJsonSigned (number : Int) : Json := Json.number number

/-- The map helpers `jsonCreateMap`, `jsonCreateIndex` and `jsonAddPairToMap`:
declared in the header, defined outside the sources, and taken as parameters. -/
structure JsonMapOps where
  jsonCreateMap : Json
  jsonCreateIndex : Nat → Json
  jsonAddPairToMap : Json → Json → Json → Json

/-- The field of an object stored under a name, if there is one. -/
def Json.field (name : String) : Json → Option Json
  | Json.object fields => findEntries fields name
  | _ => none

/-- The names of the fields of an object, in order. -/
def Json.fieldNames : Json → List String
  | Json.object fields => fields.map Prod.fst
  | _ => []

/-- The loop `for (item : items) jsonAddItemToArray(array, toJson(item))`.  An
encoder is a member function of the writer: it reads and may change the
state `σ` of the writer (its pools). -/
def appendEach {σ α : Type} (toJson : σ → α → Json × σ) :
    List α → Json → σ → Json × σ
  | [], array, st => (array, st)
  | item :: rest, array, st =>
    let itemObj := toJson st item
    appendEach toJson rest (jsonAddItemToArray array itemObj.1) itemObj.2

/-- The container overload `SVFIRWriter::toJson(const T& container)`. -/
def SVFIRWriter.toJson {σ α : Type} (toJsonItem : σ → α → Json × σ)
    (container : List α) (st : σ) : Json × σ :=
  appendEach toJsonItem container jsonCreateArray st

/-- The node loop of `genericGraphToJson`, filling the local `map`. -/
def nodeLoop {σ : Type} (ops : JsonMapOps) (virtToJson : σ → Ptr → Json × σ) :
    List (NodeID × Ptr) → Json → σ → Json × σ
  | [], map, st => (map, st)
  | pair :: rest, map, st =>
    let jsonID := ops.jsonCreateIndex pair.1
    let jsonNode := virtToJson st pair.2
    nodeLoop ops virtToJson rest (ops.jsonAddPairToMap map jsonID jsonNode.1) jsonNode.2

/-- The edge loop of `genericGraphToJson`, `for (edge : edgePool)`.  The
parameter `edgePool` of the source is a reference to a vector that lives in
the state of the writer (`getPool()` returns the member of the pool), so here
it is read off the state.  The list argument holds the elements between the
iterator and `end()`.  A body after which the vector is not what it was has
pushed onto it and so invalidated the iterators of the loop. -/
def edgeLoop {σ : Type} (virtToJson : σ → Ptr → Json × σ) (edgePool : σ → List Ptr) :
    List Ptr → Json → σ → Except Fault (Json × σ)
  | [], edgesJson, st => .ok (edgesJson, st)
  | edge :: todo, edgesJson, st =>
    let edgeJson := virtToJson st edge
    if edgePool edgeJson.2 = edgePool st then
      edgeLoop virtToJson edgePool todo (jsonAddItemToArray edgesJson edgeJson.1) edgeJson.2
    else .error Fault.iteratorInvalidated

/-- Member `SVFIRWriter::genericGraphToJson(graph, edgePool)`; `virtToJsonNode`
and `virtToJsonEdge` are the content encoders `virtToJson(node)` and
`virtToJson(edge)`, declared in the header and defined outside the sources.
The reference `edgePool` is read when the edge loop starts, after the node
loop: what the node encoders have pushed onto the vector is walked too. -/
def SVFIRWriter.genericGraphToJson {σ : Type} (ops : JsonMapOps)
    (virtToJsonNode virtToJsonEdge : σ → Ptr → Json × σ)
    (graph : GenericGraph) (edgePool : σ → List Ptr) (st : σ) : Except Fault (Json × σ) :=
  let root := jsonCreateObject
  let root := jsonAddItemToObject root "edgeNum" (toJsonNumber graph.edgeNum)
  let root := jsonAddItemToObject root "nodeNum" (toJsonNumber graph.nodeNum)
  let map := nodeLoop ops virtToJsonNode graph.IDToNodeMap ops.jsonCreateMap st
  match edgeLoop virtToJsonEdge edgePool (edgePool map.2) jsonCreateArray map.2 with
  | .error e => .error e
  | .ok edgesJson => .ok (jsonAddItemToObject root "edges" edgesJson.1, edgesJson.2)

/-- Modelled from the spec: the reference encoding of an edge pointer,
`toJson(const SVFStmt*)` and its siblings, declared in the header ("they will
be dumped as an index") and defined outside the sources; reference encoding
"emits only the pool id ... as a number", and the id is `edgeId(edge)`, which
"performs pool idFor". -/
def SVFIRWriter.toJsonEdgeRef (w : GenericGraphWriter) (edge : Ptr) :
    Json × GenericGraphWriter :=
  let r := w.getEdgeID edge
  (Json.number r.1, r.2)

/-- Member `SVFIRWriter::genericNodeToJson(node)`, on the state of the graph
writer of the node's graph: the fields `id`, `nodeKind`, `InEdges` and
`OutEdges`, the two edge sets through the container `toJson`. -/
def SVFIRWriter.genericNodeToJson (w : GenericGraphWriter) (node : Ptr) :
    Except Fault (Json × GenericGraphWriter) :=
  match w.graph.deref node with
  | none => .error Fault.badDeref
  | some n =>
    let root := jsonCreateObject
    let root := jsonAddItemToObject root "id" (toJsonNumber n.id)
    let root := jsonAddItemToObject root "nodeKind" (toJsonSigned n.nodeKind)
    let inEdges := SVFIRWriter.toJson SVFIRWriter.toJsonEdgeRef n.InEdges w
    let root := jsonAddItemToObject root "InEdges" inEdges.1
    let outEdges := SVFIRWriter.toJson SVFIRWriter.toJsonEdgeRef n.OutEdges inEdges.2
    let root := jsonAddItemToObject root "OutEdges" outEdges.1
    .ok (root, outEdges.2)

/-- An encoder reaches the graph writer only through `getEdgeID`: the writer
after an encoding is the writer before it after some `getEdgeID` calls. -/
def UsesGetEdgeID {σ : Type} (writer : σ → GenericGraphWriter)
    (enc : σ → Ptr → Json × σ) : Prop :=
  ∀ (s : σ) (p : Ptr), ∃ es : List Ptr, writer (enc s p).2 = (writer s).afterEdgeIDs es

/-- A node content encoder emits the generic node fields: among its
`getEdgeID` calls are those for every element of the `InEdges` and `OutEdges`
of the node, the fields `genericNodeToJson` emits as references. -/
def ReferencesEdgeFields {σ : Type} (writer : σ → GenericGraphWriter)
    (enc : σ → Ptr → Json × σ) : Prop :=
  ∀ (s : σ) (p : Ptr), ∃ es : List Ptr, writer (enc s p).2 = (writer s).afterEdgeIDs es ∧
    ∀ n : GenericNode, (writer s).graph.deref p = some n →
      ∀ e : Ptr, (e ∈ n.InEdges ∨ e ∈ n.OutEdges) → e ∈ es

/-- An encoder leaves the vector of the edge pool as it is. -/
def LeavesEdgePool {σ : Type} (writer : σ → GenericGraphWriter)
    (enc : σ → Ptr → Json × σ) : Prop :=
  ∀ (s : σ) (p : Ptr), (writer (enc s p).2).edgePool.getPool = (writer s).edgePool.getPool

/-- The elements the loop `appendEach` adds, in order. -/
def encodedItems {σ α : Type} (toJson : σ → α → Json × σ) : List α → σ → List Json
  | [], _ => []
  | item :: rest, st => (toJson st item).1 :: encodedItems toJson rest (toJson st item).2

/-- The state of the writer after the loop `appendEach` over the items. -/
def stateAfter {σ α : Type} (toJson : σ → α → Json × σ) : List α → σ → σ
  | [], st => st
  | item :: rest, st => stateAfter toJson rest (toJson st item).2

/-- Map helpers that keep a map as an array of two-element arrays. -/
def pairArrayOps : JsonMapOps where
  jsonCreateMap := Json.array []
  jsonCreateIndex := fun index => Json.number index
  jsonAddPairToMap := fun map key value =>
    jsonAddItemToArray map (Json.array [key, value])

/-- A content encoder used as test input: it encodes a pointer as its
address and counts its calls in the state. -/
def countingEncoder (st : Nat) (p : Ptr) : Json × Nat := (Json.number p, st + 1)

/-- A node content encoder used as test input: the generic node fields of
`genericNodeToJson`, and an empty object for a pointer without an object. -/
def genericNodeEncoder (w : GenericGraphWriter) (node : Ptr) : Json × GenericGraphWriter :=
  match SVFIRWriter.genericNodeToJson w node with
  | .ok r => r
  | .error _ => (jsonCreateObject, w)

/-- An edge content encoder used as test input: it encodes an edge as its
address and leaves the writer as it is. -/
def addressEncoder (w : GenericGraphWriter) (edge : Ptr) : Json × GenericGraphWriter :=
  (Json.number edge, w)

/-- The writer the constructor leaves over `inOnlyEdgeGraph`: node 101 under
id 11 and an empty edge pool. -/
def inOnlyEdgeWriter : GenericGraphWriter :=
  ⟨inOnlyEdgeGraph, emplaceAll Map.empty inOnlyEdgeGraph.IDToNodeMap, PtrPool.empty⟩

/-! ## The SVFG dump tool (`dump-svfg.cpp`) -/

/-- The 25 enumerators of `VFGNode::VFGNodeK` that are case labels of the
switch in `nodeKindToString`. -/
inductive VFGNodeK where
  | Addr
  | Copy
  | Gep
  | Store
  | Load
  | Cmp
  | BinaryOp
  | UnaryOp
  | Branch
  | TPhi
  | TIntraPhi
  | TInterPhi
  | MPhi
  | MIntraPhi
  | MInterPhi
  | FRet
  | ARet
  | AParm
  | FParm
  | APIN
  | APOUT
  | FPIN
  | FPOUT
  | NPtr
  | DummyVProp
deriving DecidableEq, Repr

/-- The function `nodeKindToString(kind)` of the dump tool.  The values of the
enumerators (declared in `Graphs/VFGNode.h`, not among the sources) are the
parameter `val`.  The switch has no default case and nothing follows it:
for a value that matches no case label the function returns no value, which
is `none` here. -/
def nodeKindToString (val : VFGNodeK → Int) (kind : Int) : Option String :=
  if kind = val VFGNodeK.Addr then some "Addr"
  else if kind = val VFGNodeK.Copy then some "Copy"
  else if kind = val VFGNodeK.Gep then some "Gep"
  else if kind = val VFGNodeK.Store then some "Store"
  else if kind = val VFGNodeK.Load then some "Load"
  else if kind = val VFGNodeK.Cmp then some "Cmp"
  else if kind = val VFGNodeK.BinaryOp then some "BinaryOp"
  else if kind = val VFGNodeK.UnaryOp then some "UnaryOp"
  else if kind = val VFGNodeK.Branch then some "Branch"
  else if kind = val VFGNodeK.TPhi then some "TPhi"
  else if kind = val VFGNodeK.TIntraPhi then some "TIntraPhi"
  else if kind = val VFGNodeK.TInterPhi then some "TInterPhi"
  else if kind = val VFGNodeK.MPhi then some "MPhi"
  else if kind = val VFGNodeK.MIntraPhi then some "MIntraPhi"
  else if kind = val VFGNodeK.MInterPhi then some "MInterPhi"
  else if kind = val VFGNodeK.FRet then some "FRet"
  else if kind = val VFGNodeK.ARet then some "ARet"
  else if kind = val VFGNodeK.AParm then some "AParm"
  else if kind = val VFGNodeK.FParm then some "FParm"
  else if kind = val VFGNodeK.APIN then some "APIN"
  else if kind = val VFGNodeK.APOUT then some "APOUT"
  else if kind = val VFGNodeK.FPIN then some "FPIN"
  else if kind = val VFGNodeK.FPOUT then some "FPOUT"
  else if kind = val VFGNodeK.NPtr then some "NPtr"
  else if kind = val VFGNodeK.DummyVProp then some "DummyVProp"
  else none

/-- The identifier of an enumerator, as it is spelled in the program. -/
def VFGNodeK.spelling : VFGNodeK → String
  | VFGNodeK.Addr => "Addr"
  | VFGNodeK.Copy => "Copy"
  | VFGNodeK.Gep => "Gep"
  | VFGNodeK.Store => "Store"
  | VFGNodeK.Load => "Load"
  | VFGNodeK.Cmp => "Cmp"
  | VFGNodeK.BinaryOp => "BinaryOp"
  | VFGNodeK.UnaryOp => "UnaryOp"
  | VFGNodeK.Branch => "Branch"
  | VFGNodeK.TPhi => "TPhi"
  | VFGNodeK.TIntraPhi => "TIntraPhi"
  | VFGNodeK.TInterPhi => "TInterPhi"
  | VFGNodeK.MPhi => "MPhi"
  | VFGNodeK.MIntraPhi => "MIntraPhi"
  | VFGNodeK.MInterPhi => "MInterPhi"
  | VFGNodeK.FRet => "FRet"
  | VFGNodeK.ARet => "ARet"
  | VFGNodeK.AParm => "AParm"
  | VFGNodeK.FParm => "FParm"
  | VFGNodeK.APIN => "APIN"
  | VFGNodeK.APOUT => "APOUT"
  | VFGNodeK.FPIN => "FPIN"
  | VFGNodeK.FPOUT => "FPOUT"
  | VFGNodeK.NPtr => "NPtr"
  | VFGNodeK.DummyVProp => "DummyVProp"

/-- Enumerator values used as test input: the position in the list above. -/
def listedOrder (k : VFGNodeK) : Int := (k.toCtorIdx : Int)

/-- No node pointer of the node collection is stored under two different
ids.  This holds when the node pointers of the collection are pairwise
distinct, and when the collection is keyed by the nodes' own ids. -/
def GenericGraph.OneIdPerNode (g : GenericGraph) : Prop :=
  ∀ (id1 id2 : NodeID) (node : Ptr),
    (id1, node) ∈ g.IDToNodeMap → (id2, node) ∈ g.IDToNodeMap → id1 = id2

/-- The node collection is keyed by the nodes' own ids: the object a stored
pointer points at carries the id it is stored under. -/
def GenericGraph.KeyedByIntrinsicId (g : GenericGraph) : Prop :=
  ∀ (id : NodeID) (node : Ptr), (id, node) ∈ g.IDToNodeMap →
    ∃ n : GenericNode, g.deref node = some n ∧ n.id = id

/-- Every element of an outgoing-edge list of a node of the collection is an
edge: no list holds the null pointer. -/
def GenericGraph.OutEdgesAreEdges (g : GenericGraph) : Prop :=
  ∀ node ∈ g.nodes, nullptr ∉ g.outEdgesOf node

/-! ## Lemmas on `Map` -/

theorem Map.find_empty {K V : Type} [DecidableEq K] (k : K) :
    (Map.empty : Map K V).find k = none := rfl

theorem Map.emplace_of_find_some {K V : Type} [DecidableEq K] (m : Map K V) (k : K)
    (v v0 : V) (h : m.find k = some v0) : m.emplace k v = (m, v0, false) := by
  simp [Map.emplace, h]

theorem Map.emplace_of_find_none {K V : Type} [DecidableEq K] (m : Map K V) (k : K)
    (v : V) (h : m.find k = none) : m.emplace k v = (⟨(k, v) :: m.entries⟩, v, true) := by
  simp [Map.emplace, h]

theorem Map.find_cons {K V : Type} [DecidableEq K] (es : List (K × V)) (a k : K) (b : V) :
    (Map.mk ((a, b) :: es)).find k = if a = k then some b else (Map.mk es).find k := rfl

/-- An `emplace` never changes the value found under a key that was present. -/
theorem Map.find_emplace_of_find_some {K V : Type} [DecidableEq K] (m : Map K V)
    (k q : K) (v v0 : V) (h : m.find q = some v0) : (m.emplace k v).1.find q = some v0 := by
  cases hk : m.find k with
  | some v1 => rw [Map.emplace_of_find_some m k v v1 hk]; exact h
  | none =>
    rw [Map.emplace_of_find_none m k v hk]
    have hne : k ≠ q := by
      rintro rfl
      rw [hk] at h
      exact Option.noConfusion h
    simp only [Map.find_cons, if_neg hne]
    exact h

/-- After `emplace(k, v)` the key `k` is present. -/
theorem Map.find_emplace_self {K V : Type} [DecidableEq K] (m : Map K V) (k : K) (v : V) :
    (m.emplace k v).1.find k = some (m.emplace k v).2.1 := by
  cases hk : m.find k with
  | some v1 => rw [Map.emplace_of_find_some m k v v1 hk]; exact hk
  | none =>
    rw [Map.emplace_of_find_none m k v hk]
    simp [Map.find_cons]

/-- An `emplace(k, v)` leaves every other key as it was. -/
theorem Map.find_emplace_of_ne {K V : Type} [DecidableEq K] (m : Map K V)
    (k q : K) (v : V) (h : k ≠ q) : (m.emplace k v).1.find q = m.find q := by
  cases hk : m.find k with
  | some v1 => rw [Map.emplace_of_find_some m k v v1 hk]
  | none =>
    rw [Map.emplace_of_find_none m k v hk]
    simp only [Map.find_cons, if_neg h]

/-! ## Lemmas on `PtrPool` -/

theorem PtrPool.getID_null (s : PtrPool) : s.getID nullptr = (0, s) := by
  simp [PtrPool.getID]

theorem PtrPool.getID_of_find_some (s : PtrPool) (p : Ptr) (k : Nat) (hp : p ≠ nullptr)
    (h : s.ptrToId.find p = some k) : s.getID p = (k, s) := by
  simp [PtrPool.getID, hp, Map.emplace_of_find_some _ _ _ _ h]

theorem PtrPool.getID_of_find_none (s : PtrPool) (p : Ptr) (hp : p ≠ nullptr)
    (h : s.ptrToId.find p = none) :
    s.getID p = (1 + s.ptrPool.length,
      ⟨⟨(p, 1 + s.ptrPool.length) :: s.ptrToId.entries⟩, s.ptrPool ++ [p]⟩) := by
  simp [PtrPool.getID, hp, Map.emplace_of_find_none _ _ _ h]

/-- After `getID(p)` on a non-null `p`, the map holds `p` under the returned id. -/
theorem PtrPool.find_after_getID (s : PtrPool) (p : Ptr) (hp : p ≠ nullptr) :
    (s.getID p).2.ptrToId.find p = some (s.getID p).1 := by
  cases h : s.ptrToId.find p with
  | some k => rw [PtrPool.getID_of_find_some s p k hp h]; exact h
  | none => rw [PtrPool.getID_of_find_none s p hp h]; simp [Map.find_cons]

/-- A key present in the map keeps its value over any `getID`. -/
theorem PtrPool.find_getID_of_find_some (s : PtrPool) (p q : Ptr) (k : Nat)
    (h : s.ptrToId.find q = some k) : (s.getID p).2.ptrToId.find q = some k := by
  by_cases hp : p = nullptr
  · subst hp; rw [PtrPool.getID_null]; exact h
  · cases hf : s.ptrToId.find p with
    | some k1 => rw [PtrPool.getID_of_find_some s p k1 hp hf]; exact h
    | none =>
      rw [PtrPool.getID_of_find_none s p hp hf]
      have hne : p ≠ q := by
        rintro rfl
        rw [hf] at h
        exact Option.noConfusion h
      simp only [Map.find_cons, if_neg hne]
      exact h

theorem PtrPool.step_eq (s : PtrPool) (c : PoolCall) : s.step c = (s.getID c.arg).2 := by
  cases c <;> rfl

theorem PtrPool.run_nil (s : PtrPool) : s.run [] = s := rfl

theorem PtrPool.run_cons (s : PtrPool) (c : PoolCall) (cs : List PoolCall) :
    s.run (c :: cs) = (s.step c).run cs := rfl

theorem PtrPool.run_append (s : PtrPool) (cs ds : List PoolCall) :
    s.run (cs ++ ds) = (s.run cs).run ds := by
  simp [PtrPool.run, List.foldl_append]

/-- A key present in the map keeps its value over any sequence of calls. -/
theorem PtrPool.find_run_of_find_some (s : PtrPool) (cs : List PoolCall) (q : Ptr) (k : Nat)
    (h : s.ptrToId.find q = some k) : (s.run cs).ptrToId.find q = some k := by
  induction cs generalizing s with
  | nil => exact h
  | cons c cs ih =>
    rw [PtrPool.run_cons]
    apply ih
    rw [PtrPool.step_eq]
    exact PtrPool.find_getID_of_find_some s c.arg q k h

/-! ## The representation invariant -/

theorem PtrPool.Inv_empty : PtrPool.empty.Inv where
  find_iff := by
    intro p k
    simp [PtrPool.empty, Map.find_empty]
  no_null := by simp [PtrPool.empty]
  size_eq := rfl

theorem PtrPool.Inv_getID (s : PtrPool) (h : s.Inv) (p : Ptr) : (s.getID p).2.Inv := by
  by_cases hp : p = nullptr
  · subst hp; rw [PtrPool.getID_null]; exact h
  · cases hf : s.ptrToId.find p with
    | some k1 => rw [PtrPool.getID_of_find_some s p k1 hp hf]; exact h
    | none =>
      rw [PtrPool.getID_of_find_none s p hp hf]
      refine ⟨?_, ?_, ?_⟩
      · intro q k
        simp only [Map.find_cons]
        by_cases hq : p = q
        · subst hq
          simp only [if_true]
          constructor
          · intro hk
            have hk1 : 1 + s.ptrPool.length = k := Option.some.inj hk
            subst hk1
            refine ⟨by omega, ?_⟩
            have : 1 + s.ptrPool.length - 1 = s.ptrPool.length := by omega
            rw [this]
            exact List.getElem?_concat_length _ _
          · rintro ⟨hk1, hk2⟩
            rcases Nat.lt_trichotomy (k - 1) s.ptrPool.length with hlt | heq | hgt
            · rw [List.getElem?_append_left hlt] at hk2
              have := (h.find_iff p k).mpr ⟨hk1, hk2⟩
              rw [hf] at this
              exact Option.noConfusion this
            · congr 1; omega
            · rw [List.getElem?_eq_none (by simp; omega)] at hk2
              exact Option.noConfusion hk2
        · simp only [if_neg hq]
          have hs : (Map.mk s.ptrToId.entries).find q = s.ptrToId.find q := rfl
          rw [hs, h.find_iff q k]
          constructor
          · rintro ⟨hk1, hk2⟩
            refine ⟨hk1, ?_⟩
            have hlt : k - 1 < s.ptrPool.length := (List.getElem?_eq_some.mp hk2).1
            rw [List.getElem?_append_left hlt]
            exact hk2
          · rintro ⟨hk1, hk2⟩
            refine ⟨hk1, ?_⟩
            rcases Nat.lt_trichotomy (k - 1) s.ptrPool.length with hlt | heq | hgt
            · rw [List.getElem?_append_left hlt] at hk2
              exact hk2
            · rw [heq, List.getElem?_concat_length] at hk2
              exact absurd (Option.some.inj hk2) hq
            · rw [List.getElem?_eq_none (by simp; omega)] at hk2
              exact Option.noConfusion hk2
      · intro hmem
        rcases List.mem_append.mp hmem with h1 | h1
        · exact h.no_null h1
        · exact hp (List.mem_singleton.mp h1).symm
      · have := h.size_eq
        simp only [Map.size] at this ⊢
        simp [this]

theorem PtrPool.Inv_run (s : PtrPool) (h : s.Inv) (cs : List PoolCall) : (s.run cs).Inv := by
  induction cs generalizing s with
  | nil => exact h
  | cons c cs ih =>
    rw [PtrPool.run_cons]
    apply ih
    rw [PtrPool.step_eq]
    exact PtrPool.Inv_getID s h c.arg

theorem PtrPool.Reachable.inv {s : PtrPool} (h : s.Reachable) : s.Inv := by
  obtain ⟨cs, rfl⟩ := h
  exact PtrPool.Inv_run _ PtrPool.Inv_empty cs

theorem PtrPool.Reachable.getID {s : PtrPool} (h : s.Reachable) (p : Ptr) :
    (s.getID p).2.Reachable := by
  obtain ⟨cs, rfl⟩ := h
  exact ⟨cs ++ [PoolCall.getID p], by rw [PtrPool.run_append]; rfl⟩

theorem PtrPool.Reachable.run {s : PtrPool} (h : s.Reachable) (ds : List PoolCall) :
    (s.run ds).Reachable := by
  obtain ⟨cs, rfl⟩ := h
  exact ⟨cs ++ ds, PtrPool.run_append _ cs ds⟩

/-- Under the invariant every id in the map lies in `1..size`. -/
theorem PtrPool.Inv.id_range {s : PtrPool} (h : s.Inv) {p : Ptr} {k : Nat}
    (hf : s.ptrToId.find p = some k) : 1 ≤ k ∧ k ≤ s.ptrPool.length := by
  obtain ⟨h1, h2⟩ := (h.find_iff p k).mp hf
  have := (List.getElem?_eq_some.mp h2).1
  omega

/-- Under the invariant the registered pointers are the elements of the vector. -/
theorem PtrPool.Inv.mem_iff {s : PtrPool} (h : s.Inv) (p : Ptr) :
    p ∈ s.ptrPool ↔ ∃ k, s.ptrToId.find p = some k := by
  constructor
  · intro hm
    obtain ⟨n, hn⟩ := List.mem_iff_getElem?.mp hm
    exact ⟨n + 1, (h.find_iff p (n + 1)).mpr ⟨by omega, by simpa using hn⟩⟩
  · rintro ⟨k, hk⟩
    exact List.mem_iff_getElem?.mpr ⟨k - 1, ((h.find_iff p k).mp hk).2⟩

/-- Under the invariant two pointers with the same id are the same pointer. -/
theorem PtrPool.Inv.find_inj {s : PtrPool} (h : s.Inv) {p q : Ptr} {k : Nat}
    (hp : s.ptrToId.find p = some k) (hq : s.ptrToId.find q = some k) : p = q := by
  have h1 := ((h.find_iff p k).mp hp).2
  have h2 := ((h.find_iff q k).mp hq).2
  rw [h1] at h2
  exact Option.some.inj h2

/-- Under the invariant the vector holds no pointer twice. -/
theorem PtrPool.Inv.nodup {s : PtrPool} (h : s.Inv) : s.ptrPool.Nodup := by
  rw [List.nodup_iff_getElem?_ne_getElem?]
  intro i j hij hj heq
  have hi : i < s.ptrPool.length := by omega
  have h1 : s.ptrPool[i]? = some s.ptrPool[i] := List.getElem?_eq_getElem hi
  have f1 := (h.find_iff s.ptrPool[i] (i + 1)).mpr ⟨by omega, by simp⟩
  have f2 := (h.find_iff s.ptrPool[i] (j + 1)).mpr ⟨by omega, by simpa using heq ▸ h1⟩
  rw [f1] at f2
  have := Option.some.inj f2
  omega

/-- The vector after `getID(p)`: the old elements, and `p` when it is not null. -/
theorem PtrPool.mem_getID {s : PtrPool} (h : s.Inv) (p q : Ptr) :
    q ∈ (s.getID p).2.ptrPool ↔ q ∈ s.ptrPool ∨ (q = p ∧ p ≠ nullptr) := by
  by_cases hp : p = nullptr
  · subst hp; rw [PtrPool.getID_null]; simp
  · cases hf : s.ptrToId.find p with
    | some k1 =>
      rw [PtrPool.getID_of_find_some s p k1 hp hf]
      constructor
      · intro hq; exact Or.inl hq
      · rintro (hq | ⟨rfl, _⟩)
        · exact hq
        · exact (h.mem_iff q).mpr ⟨k1, hf⟩
    | none =>
      rw [PtrPool.getID_of_find_none s p hp hf]
      simp [hp]

/-- The vector after a sequence of calls: the old elements and the non-null
arguments of the calls. -/
theorem PtrPool.mem_run {s : PtrPool} (h : s.Inv) (cs : List PoolCall) (q : Ptr) :
    q ∈ (s.run cs).ptrPool ↔ q ∈ s.ptrPool ∨ (q ≠ nullptr ∧ q ∈ cs.map PoolCall.arg) := by
  induction cs generalizing s with
  | nil => simp [PtrPool.run_nil]
  | cons c cs ih =>
    rw [PtrPool.run_cons, PtrPool.step_eq, ih (PtrPool.Inv_getID s h c.arg),
      PtrPool.mem_getID h]
    simp only [List.map_cons, List.mem_cons]
    constructor
    · rintro ((hq | ⟨rfl, hq⟩) | ⟨hq1, hq2⟩)
      · exact Or.inl hq
      · exact Or.inr ⟨hq, Or.inl rfl⟩
      · exact Or.inr ⟨hq1, Or.inr hq2⟩
    · rintro (hq | ⟨hq1, rfl | hq2⟩)
      · exact Or.inl (Or.inl hq)
      · exact Or.inl (Or.inr ⟨rfl, hq1⟩)
      · exact Or.inr ⟨hq1, hq2⟩

/-- From the empty pool, the size of the vector is the number of distinct
non-null pointers passed so far. -/
theorem PtrPool.length_run_empty (cs : List PoolCall) :
    (PtrPool.empty.run cs).ptrPool.length =
      ((cs.map PoolCall.arg).filter (fun p => decide (p ≠ nullptr))).toFinset.card := by
  have hinv := PtrPool.Inv_run _ PtrPool.Inv_empty cs
  rw [← List.toFinset_card_of_nodup hinv.nodup]
  congr 1
  ext q
  simp only [List.mem_toFinset, List.mem_filter, decide_eq_true_eq]
  rw [PtrPool.mem_run PtrPool.Inv_empty]
  simp [PtrPool.empty, and_comm]

theorem PtrPool.getPtr_zero (s : PtrPool) : s.getPtr 0 = .ok nullptr := by
  simp [PtrPool.getPtr]

theorem PtrPool.getPtr_of_getElem? (s : PtrPool) (id : Nat) (p : Ptr) (h1 : 1 ≤ id)
    (h2 : s.ptrPool[id - 1]? = some p) : s.getPtr id = .ok p := by
  obtain ⟨hlt, heq⟩ := List.getElem?_eq_some.mp h2
  have hle : id ≤ s.ptrPool.length := by omega
  have hne : id ≠ 0 := by omega
  simp [PtrPool.getPtr, hle, hne, heq]

theorem PtrPool.getPtr_of_gt (s : PtrPool) (id : Nat) (h : s.ptrPool.length < id) :
    s.getPtr id = .error Fault.invalidID := by
  have hle : ¬ id ≤ s.ptrPool.length := by omega
  simp [PtrPool.getPtr, hle]

/-! ## The identity pool: claims C1 to C7 -/

/-- C1: on every state a pool object can be in, `getID(p)` returns 0 if and
only if `p` is the null pointer, and `getID` of the null pointer leaves both
the map and the vector unchanged. -/
theorem PtrPool.getID_eq_zero_iff_null (s : PtrPool) (hs : s.Reachable) (p : Ptr) :
    ((s.getID p).1 = 0 ↔ p = nullptr) ∧
    (s.getID nullptr).2.ptrToId = s.ptrToId ∧ (s.getID nullptr).2.ptrPool = s.ptrPool := by
  refine ⟨⟨?_, ?_⟩, ?_, ?_⟩
  · intro h0
    by_contra hp
    have hinv := PtrPool.Inv_getID s hs.inv p
    have hf := PtrPool.find_after_getID s p hp
    have := (hinv.id_range hf).1
    omega
  · rintro rfl
    rw [PtrPool.getID_null]
  · rw [PtrPool.getID_null]
  · rw [PtrPool.getID_null]

/-- Witness for C1 at the pool holding 5 and 7 and the pointer 5. -/
theorem PtrPool.getID_eq_zero_iff_null_witness :
    samplePool.Reachable ∧
    (((samplePool.getID 5).1 = 0 ↔ (5 : Ptr) = nullptr) ∧
      (samplePool.getID nullptr).2.ptrToId = samplePool.ptrToId ∧
      (samplePool.getID nullptr).2.ptrPool = samplePool.ptrPool) :=
  ⟨⟨[PoolCall.getID 5, PoolCall.saveID 7], rfl⟩,
    PtrPool.getID_eq_zero_iff_null samplePool
      ⟨[PoolCall.getID 5, PoolCall.saveID 7], rfl⟩ 5⟩

/-- C2: `getID` is stable.  Whatever the pool and the pointer `p`, once
`getID(p)` has returned an id, a later `getID(p)` returns the same id after
any sequence `cs` of `getID` / `saveID` calls in between (on other pointers,
or on `p` itself). -/
theorem PtrPool.getID_stable (s : PtrPool) (p : Ptr) (cs : List PoolCall) :
    (((s.getID p).2.run cs).getID p).1 = (s.getID p).1 := by
  by_cases hp : p = nullptr
  · subst hp; simp [PtrPool.getID_null]
  · have hf := PtrPool.find_after_getID s p hp
    have hr := PtrPool.find_run_of_find_some _ cs p _ hf
    rw [PtrPool.getID_of_find_some _ p _ hp hr]

/-- C3: `getID` is injective.  On a pool reached from the empty pool, two
distinct non-null pointers `p` and `q` never get the same id: the id returned
by `getID(p)` differs from the id returned by a `getID(q)` made later, after
any sequence `cs` of calls in between. -/
theorem PtrPool.getID_injective (s : PtrPool) (hs : s.Reachable) (p q : Ptr)
    (hp : p ≠ nullptr) (hq : q ≠ nullptr) (hpq : p ≠ q) (cs : List PoolCall) :
    (s.getID p).1 ≠ (((s.getID p).2.run cs).getID q).1 := by
  intro heq
  have hr : ((s.getID p).2.run cs).Reachable := (hs.getID p).run cs
  have hinv := PtrPool.Inv_getID _ hr.inv q
  have fp := PtrPool.find_getID_of_find_some _ q p _
    (PtrPool.find_run_of_find_some _ cs p _ (PtrPool.find_after_getID s p hp))
  have fq := PtrPool.find_after_getID ((s.getID p).2.run cs) q hq
  rw [← heq] at fq
  exact hpq (hinv.find_inj fp fq)

/-- Witness for C3: on the pool holding 5 and 7, pointer 7 and the new
pointer 9 (asked after a `saveID(11)`) get different ids. -/
theorem PtrPool.getID_injective_witness :
    samplePool.Reachable ∧ (7 : Ptr) ≠ nullptr ∧ (9 : Ptr) ≠ nullptr ∧ (7 : Ptr) ≠ 9 ∧
    (samplePool.getID 7).1 ≠
      (((samplePool.getID 7).2.run [PoolCall.saveID 11]).getID 9).1 :=
  ⟨⟨[PoolCall.getID 5, PoolCall.saveID 7], rfl⟩, by decide, by decide, by decide,
    PtrPool.getID_injective samplePool ⟨[PoolCall.getID 5, PoolCall.saveID 7], rfl⟩ 7 9
      (by decide) (by decide) (by decide) [PoolCall.saveID 11]⟩

/-- C4: for a non-null pointer `p` that has no entry in the map, `getID(p)`
returns the vector size plus one, appends `p` to the vector and adds one map
entry; and from the empty pool, a non-null pointer that was not passed by any
of the calls `cs` made so far receives the number of distinct non-null
pointers passed so far, plus one: the k-th distinct pointer gets id k. -/
theorem PtrPool.getID_fresh_is_next :
    (∀ (s : PtrPool) (p : Ptr), p ≠ nullptr → s.ptrToId.find p = none →
      (s.getID p).1 = s.ptrPool.length + 1 ∧
      (s.getID p).2.ptrPool = s.ptrPool ++ [p] ∧
      (s.getID p).2.ptrPool.length = s.ptrPool.length + 1 ∧
      (s.getID p).2.ptrToId.size = s.ptrToId.size + 1) ∧
    (∀ (cs : List PoolCall) (p : Ptr), p ≠ nullptr → p ∉ cs.map PoolCall.arg →
      ((PtrPool.empty.run cs).getID p).1 =
        ((cs.map PoolCall.arg).filter (fun q => decide (q ≠ nullptr))).toFinset.card + 1) := by
  constructor
  · intro s p hp hf
    rw [PtrPool.getID_of_find_none s p hp hf]
    simp [Map.size, Nat.add_comm]
  · intro cs p hp hnot
    have hinv := PtrPool.Inv_run _ PtrPool.Inv_empty cs
    have hmem : p ∉ (PtrPool.empty.run cs).ptrPool := by
      rw [PtrPool.mem_run PtrPool.Inv_empty]
      rintro (h | ⟨_, h⟩)
      · simp [PtrPool.empty] at h
      · exact hnot h
    have hf : (PtrPool.empty.run cs).ptrToId.find p = none := by
      cases hfind : (PtrPool.empty.run cs).ptrToId.find p with
      | none => rfl
      | some k => exact absurd ((hinv.mem_iff p).mpr ⟨k, hfind⟩) hmem
    rw [PtrPool.getID_of_find_none _ p hp hf, ← PtrPool.length_run_empty]
    simp [Nat.add_comm]

/-- Witness for C4: pointer 9 is new to the pool holding 5 and 7 and gets
id 3; it is the third distinct non-null pointer after the calls on 5, 0, 7, 5. -/
theorem PtrPool.getID_fresh_is_next_witness :
    ((9 : Ptr) ≠ nullptr ∧ samplePool.ptrToId.find 9 = none ∧
      (samplePool.getID 9).1 = 3 ∧ (samplePool.getID 9).2.ptrPool = [5, 7, 9]) ∧
    ((9 : Ptr) ∉ [PoolCall.getID 5, PoolCall.getID 0, PoolCall.saveID 7,
        PoolCall.getID 5].map PoolCall.arg ∧
      ((PtrPool.empty.run [PoolCall.getID 5, PoolCall.getID 0, PoolCall.saveID 7,
        PoolCall.getID 5]).getID 9).1 = 2 + 1) :=
  ⟨⟨by decide, by decide, by decide, by decide⟩, by decide,
    (PtrPool.getID_fresh_is_next.2 [PoolCall.getID 5, PoolCall.getID 0, PoolCall.saveID 7,
      PoolCall.getID 5] 9 (by decide) (by decide)).trans (by decide)⟩

/-- C5: `getPtr` is the inverse of `getID` on every state a pool object can
be in.  For every pointer `p`, null included, `getPtr` of the id returned by
`getID(p)` succeeds with `p`; and for every `id` from 0 to the vector size,
`getPtr(id)` succeeds with a pointer whose `getID` is `id` again and leaves
the pool as it is. -/
theorem PtrPool.getPtr_getID_inverse (s : PtrPool) (hs : s.Reachable) :
    (∀ p : Ptr, (s.getID p).2.getPtr (s.getID p).1 = .ok p) ∧
    (∀ id : Nat, id ≤ s.ptrPool.length →
      ∃ p : Ptr, s.getPtr id = .ok p ∧ s.getID p = (id, s)) := by
  constructor
  · intro p
    by_cases hp : p = nullptr
    · subst hp; rw [PtrPool.getID_null]; exact PtrPool.getPtr_zero s
    · have hinv := PtrPool.Inv_getID s hs.inv p
      obtain ⟨h1, h2⟩ := (hinv.find_iff p _).mp (PtrPool.find_after_getID s p hp)
      exact PtrPool.getPtr_of_getElem? _ _ p h1 h2
  · intro id hid
    by_cases h0 : id = 0
    · subst h0
      exact ⟨nullptr, PtrPool.getPtr_zero s, PtrPool.getID_null s⟩
    · have hlt : id - 1 < s.ptrPool.length := by omega
      have hget : s.ptrPool[id - 1]? = some s.ptrPool[id - 1] :=
        List.getElem?_eq_getElem hlt
      refine ⟨s.ptrPool[id - 1], PtrPool.getPtr_of_getElem? s id _ (by omega) hget, ?_⟩
      have hne : s.ptrPool[id - 1] ≠ nullptr := by
        intro hnull
        exact hs.inv.no_null (hnull ▸ List.getElem_mem hlt)
      exact PtrPool.getID_of_find_some s _ id hne
        ((hs.inv.find_iff _ id).mpr ⟨by omega, hget⟩)

/-- Witness for C5 on the pool holding 5 and 7. -/
theorem PtrPool.getPtr_getID_inverse_witness :
    samplePool.Reachable ∧
    (samplePool.getID 7).2.getPtr (samplePool.getID 7).1 = .ok 7 ∧
    (samplePool.getID 9).2.getPtr (samplePool.getID 9).1 = .ok 9 ∧
    (∃ p : Ptr, samplePool.getPtr 2 = .ok p ∧ samplePool.getID p = (2, samplePool)) :=
  ⟨⟨[PoolCall.getID 5, PoolCall.saveID 7], rfl⟩,
    (PtrPool.getPtr_getID_inverse samplePool
      ⟨[PoolCall.getID 5, PoolCall.saveID 7], rfl⟩).1 7,
    (PtrPool.getPtr_getID_inverse samplePool
      ⟨[PoolCall.getID 5, PoolCall.saveID 7], rfl⟩).1 9,
    (PtrPool.getPtr_getID_inverse samplePool
      ⟨[PoolCall.getID 5, PoolCall.saveID 7], rfl⟩).2 2 (by decide)⟩

/-- C6: on every state a pool object can be in, `getPtr(id)` fails, with the
"Invalid ID." assertion, if and only if `id` is greater than the vector size;
for every `id` from 0 to the size it succeeds, and the pointer it returns is
null exactly when `id` is 0. -/
theorem PtrPool.getPtr_fails_iff (s : PtrPool) (hs : s.Reachable) (id : Nat) :
    ((∃ e : Fault, s.getPtr id = .error e) ↔ s.ptrPool.length < id) ∧
    (s.ptrPool.length < id → s.getPtr id = .error Fault.invalidID) ∧
    (id ≤ s.ptrPool.length → ∃ p : Ptr, s.getPtr id = .ok p ∧ (p = nullptr ↔ id = 0)) := by
  have hok : id ≤ s.ptrPool.length →
      ∃ p : Ptr, s.getPtr id = .ok p ∧ (p = nullptr ↔ id = 0) := by
    intro hid
    by_cases h0 : id = 0
    · subst h0
      exact ⟨nullptr, PtrPool.getPtr_zero s, by simp⟩
    · have hlt : id - 1 < s.ptrPool.length := by omega
      have hget : s.ptrPool[id - 1]? = some s.ptrPool[id - 1] :=
        List.getElem?_eq_getElem hlt
      refine ⟨s.ptrPool[id - 1], PtrPool.getPtr_of_getElem? s id _ (by omega) hget, ?_⟩
      constructor
      · intro hnull
        exact absurd (hnull ▸ List.getElem_mem hlt) hs.inv.no_null
      · intro hz
        exact absurd hz h0
  refine ⟨⟨?_, ?_⟩, PtrPool.getPtr_of_gt s id, hok⟩
  · rintro ⟨e, he⟩
    by_contra hle
    obtain ⟨p, hp, _⟩ := hok (by omega)
    rw [hp] at he
    exact Except.noConfusion he
  · intro hgt
    exact ⟨Fault.invalidID, PtrPool.getPtr_of_gt s id hgt⟩

/-- Witness for C6 on the pool holding 5 and 7: id 3 fails, id 2 gives the
non-null pointer 7. -/
theorem PtrPool.getPtr_fails_iff_witness :
    samplePool.Reachable ∧
    samplePool.getPtr 3 = .error Fault.invalidID ∧
    (∃ p : Ptr, samplePool.getPtr 2 = .ok p ∧ (p = nullptr ↔ 2 = 0)) :=
  ⟨⟨[PoolCall.getID 5, PoolCall.saveID 7], rfl⟩,
    (PtrPool.getPtr_fails_iff samplePool
      ⟨[PoolCall.getID 5, PoolCall.saveID 7], rfl⟩ 3).2.1 (by decide),
    (PtrPool.getPtr_fails_iff samplePool
      ⟨[PoolCall.getID 5, PoolCall.saveID 7], rfl⟩ 2).2.2 (by decide)⟩

/-- C7: the pool is append-only.  For every pool state and every call `c`
(`getID(p)` or `saveID(p)`), the vector before the call is a prefix of the
vector after it, the vector grows by at most one element, `saveID(p)` leaves
the pool `getID(p)` leaves, and every pointer that had an id before the call
has the same id after it, in the map and as the result of `getID`. -/
theorem PtrPool.append_only (s : PtrPool) (c : PoolCall) :
    s.ptrPool <+: (s.step c).ptrPool ∧
    (s.step c).ptrPool.length ≤ s.ptrPool.length + 1 ∧
    s.saveID c.arg = (s.getID c.arg).2 ∧
    (∀ (q : Ptr) (k : Nat), s.ptrToId.find q = some k →
      (s.step c).ptrToId.find q = some k ∧
      (q ≠ nullptr → (s.getID q).1 = k ∧ ((s.step c).getID q).1 = k)) := by
  rw [PtrPool.step_eq]
  refine ⟨?_, ?_, rfl, ?_⟩
  · by_cases hp : c.arg = nullptr
    · rw [hp, PtrPool.getID_null]
    · cases hf : s.ptrToId.find c.arg with
      | some k1 => rw [PtrPool.getID_of_find_some s _ k1 hp hf]
      | none => rw [PtrPool.getID_of_find_none s _ hp hf]; exact List.prefix_append _ _
  · by_cases hp : c.arg = nullptr
    · rw [hp, PtrPool.getID_null]; exact Nat.le_succ _
    · cases hf : s.ptrToId.find c.arg with
      | some k1 => rw [PtrPool.getID_of_find_some s _ k1 hp hf]; exact Nat.le_succ _
      | none => rw [PtrPool.getID_of_find_none s _ hp hf]; simp
  · intro q k hq
    have hq1 := PtrPool.find_getID_of_find_some s c.arg q k hq
    refine ⟨hq1, fun hne => ⟨?_, ?_⟩⟩
    · rw [PtrPool.getID_of_find_some s q k hne hq]
    · rw [PtrPool.getID_of_find_some _ q k hne hq1]

/-- Witness for C7: `saveID(9)` on the pool holding 5 and 7 keeps `[5, 7]` as
a prefix and keeps the id 2 of pointer 7. -/
theorem PtrPool.append_only_witness :
    samplePool.ptrPool = [5, 7] ∧
    (samplePool.step (PoolCall.saveID 9)).ptrPool = [5, 7, 9] ∧
    samplePool.ptrToId.find 7 = some 2 ∧
    (samplePool.step (PoolCall.saveID 9)).ptrToId.find 7 = some 2 ∧
    ((samplePool.step (PoolCall.saveID 9)).getID 7).1 = 2 :=
  ⟨by decide, by decide, by decide,
    ((PtrPool.append_only samplePool (PoolCall.saveID 9)).2.2.2 7 2 (by decide)).1,
    (((PtrPool.append_only samplePool (PoolCall.saveID 9)).2.2.2 7 2 (by decide)).2
      (by decide)).2⟩

/-! ## Lemmas on the graph writer -/

theorem foldl_saveID_eq_run (s : PtrPool) (es : List Ptr) :
    es.foldl PtrPool.saveID s = s.run (es.map PoolCall.saveID) := by
  induction es generalizing s with
  | nil => rfl
  | cons e es ih => exact ih (s.saveID e)

theorem emplaceAll_nil (m : Map Ptr NodeID) : emplaceAll m [] = m := rfl

theorem emplaceAll_cons (m : Map Ptr NodeID) (e : NodeID × Ptr) (es : List (NodeID × Ptr)) :
    emplaceAll m (e :: es) = emplaceAll (m.emplace e.2 e.1).1 es := rfl

/-- A node present in the map keeps its id over the rest of the loop. -/
theorem find_emplaceAll_of_find_some (m : Map Ptr NodeID) (es : List (NodeID × Ptr))
    (q : Ptr) (k : NodeID) (h : m.find q = some k) : (emplaceAll m es).find q = some k := by
  induction es generalizing m with
  | nil => exact h
  | cons e es ih =>
    rw [emplaceAll_cons]
    exact ih _ (Map.find_emplace_of_find_some m e.2 q e.1 k h)

/-- A node that is in none of the entries is absent after the loop if it was
absent before. -/
theorem find_emplaceAll_of_not_mem (m : Map Ptr NodeID) (es : List (NodeID × Ptr))
    (q : Ptr) (h : m.find q = none) (hq : q ∉ es.map Prod.snd) :
    (emplaceAll m es).find q = none := by
  induction es generalizing m with
  | nil => exact h
  | cons e es ih =>
    rw [emplaceAll_cons]
    simp only [List.map_cons, List.mem_cons, not_or] at hq
    apply ih _ _ hq.2
    rw [Map.find_emplace_of_ne m e.2 q e.1 (fun heq => hq.1 heq.symm)]
    exact h

/-- A node absent before the loop gets the id of the first entry holding it. -/
theorem find_emplaceAll_first (m : Map Ptr NodeID) (pre post : List (NodeID × Ptr))
    (id : NodeID) (node : Ptr) (h : m.find node = none) (hpre : node ∉ pre.map Prod.snd) :
    (emplaceAll m (pre ++ (id, node) :: post)).find node = some id := by
  induction pre generalizing m with
  | nil =>
    rw [List.nil_append, emplaceAll_cons]
    apply find_emplaceAll_of_find_some
    rw [Map.find_emplace_self, Map.emplace_of_find_none m node id h]
  | cons e pre ih =>
    rw [List.cons_append, emplaceAll_cons]
    simp only [List.map_cons, List.mem_cons, not_or] at hpre
    apply ih _ _ hpre.2
    rw [Map.find_emplace_of_ne m e.2 node e.1 (fun heq => hpre.1 heq.symm)]
    exact h

/-- Every node of the entries is present after the loop. -/
theorem find_emplaceAll_of_mem (m : Map Ptr NodeID) (es : List (NodeID × Ptr))
    (q : Ptr) (hq : q ∈ es.map Prod.snd) : ∃ k, (emplaceAll m es).find q = some k := by
  induction es generalizing m with
  | nil => simp at hq
  | cons e es ih =>
    rw [emplaceAll_cons]
    simp only [List.map_cons, List.mem_cons] at hq
    rcases hq with rfl | hq
    · exact ⟨_, find_emplaceAll_of_find_some _ es _ _ (Map.find_emplace_self m e.2 e.1)⟩
    · exact ih _ hq

/-- One iteration of the constructor's loop on a node pointer with an object. -/
theorem GenericGraphWriter.visit_of_deref (w : GenericGraphWriter) (e : NodeID × Ptr)
    (n : GenericNode) (h : w.graph.deref e.2 = some n) :
    w.visit e = .ok ⟨w.graph, (w.nodeToID.emplace e.2 e.1).1,
      w.edgePool.run ((w.graph.outEdgesOf e.2).map PoolCall.saveID)⟩ := by
  simp only [GenericGraphWriter.visit, GenericGraph.outEdgesOf, h, foldl_saveID_eq_run]

/-- One iteration of the constructor's loop on a pointer without an object. -/
theorem GenericGraphWriter.visit_of_deref_none (w : GenericGraphWriter) (e : NodeID × Ptr)
    (h : w.graph.deref e.2 = none) : w.visit e = .error Fault.badDeref := by
  simp only [GenericGraphWriter.visit, h]

/-- The constructor's loop over entries whose node pointers all have an
object: it completes, and the writer it leaves is given by the `emplace`
calls and by the `saveID` calls along the outgoing-edge walk. -/
theorem GenericGraphWriter.visitAll_spec (w : GenericGraphWriter) (es : List (NodeID × Ptr))
    (hv : ∀ node ∈ es.map Prod.snd, w.graph.deref node ≠ none) :
    w.visitAll es = .ok ⟨w.graph, emplaceAll w.nodeToID es,
      w.edgePool.run ((w.graph.outEdgeWalk (es.map Prod.snd)).map PoolCall.saveID)⟩ := by
  induction es generalizing w with
  | nil => rfl
  | cons e es ih =>
    have he : w.graph.deref e.2 ≠ none := hv e.2 (by simp)
    obtain ⟨n, hn⟩ := Option.ne_none_iff_exists'.mp he
    simp only [GenericGraphWriter.visitAll, GenericGraphWriter.visit_of_deref w e n hn]
    rw [ih]
    · simp only [emplaceAll_cons, List.map_cons, GenericGraph.outEdgeWalk, List.map_append,
        PtrPool.run_append]
    · intro node hnode
      exact hv node (by simp only [List.map_cons, List.mem_cons]; exact Or.inr hnode)

/-- The constructor completes on a valid graph, with this writer. -/
theorem GenericGraphWriter.construct_of_valid (g : GenericGraph) (hv : g.Valid) :
    GenericGraphWriter.construct g = .ok ⟨g, emplaceAll Map.empty g.IDToNodeMap,
      PtrPool.empty.run ((g.outEdgeWalk g.nodes).map PoolCall.saveID)⟩ :=
  GenericGraphWriter.visitAll_spec ⟨g, Map.empty, PtrPool.empty⟩ g.IDToNodeMap hv

/-- The constructor's loop stops with a fault at a pointer without an object. -/
theorem GenericGraphWriter.visitAll_error (w : GenericGraphWriter) (es : List (NodeID × Ptr))
    (node : Ptr) (hmem : node ∈ es.map Prod.snd) (hnone : w.graph.deref node = none) :
    w.visitAll es = .error Fault.badDeref := by
  induction es generalizing w with
  | nil => simp at hmem
  | cons e es ih =>
    cases hd : w.graph.deref e.2 with
    | none => simp only [GenericGraphWriter.visitAll, GenericGraphWriter.visit_of_deref_none w e hd]
    | some n =>
      simp only [GenericGraphWriter.visitAll, GenericGraphWriter.visit_of_deref w e n hd]
      simp only [List.map_cons, List.mem_cons] at hmem
      rcases hmem with rfl | hmem
      · rw [hd] at hnone; exact Option.noConfusion hnone
      · exact ih _ hmem hnone

/-- The constructor completes exactly on the valid graphs. -/
theorem GenericGraphWriter.construct_ok_iff_valid (g : GenericGraph) :
    (∃ w, GenericGraphWriter.construct g = .ok w) ↔ g.Valid := by
  constructor
  · rintro ⟨w, hw⟩ node hnode hnone
    have := GenericGraphWriter.visitAll_error ⟨g, Map.empty, PtrPool.empty⟩ g.IDToNodeMap
      node hnode hnone
    rw [GenericGraphWriter.construct, this] at hw
    exact Except.noConfusion hw
  · intro hv
    exact ⟨_, GenericGraphWriter.construct_of_valid g hv⟩

theorem GenericGraphWriter.afterEdgeIDs_nodeToID (w : GenericGraphWriter) (es : List Ptr) :
    (w.afterEdgeIDs es).nodeToID = w.nodeToID := by
  induction es generalizing w with
  | nil => rfl
  | cons e es ih => exact ih (w.getEdgeID e).2

/-- An edge of the outgoing-edge list of a listed node is on the walk. -/
theorem GenericGraph.mem_outEdgeWalk (g : GenericGraph) (nodes : List Ptr) (node e : Ptr)
    (hnode : node ∈ nodes) (he : e ∈ g.outEdgesOf node) : e ∈ g.outEdgeWalk nodes := by
  induction nodes with
  | nil => simp at hnode
  | cons a rest ih =>
    simp only [GenericGraph.outEdgeWalk, List.mem_append]
    rcases List.mem_cons.mp hnode with rfl | h
    · exact Or.inl he
    · exact Or.inr (ih h)

theorem map_arg_saveID (es : List Ptr) :
    (es.map PoolCall.saveID).map PoolCall.arg = es := by
  induction es with
  | nil => rfl
  | cons e es ih => simp only [List.map_cons, PoolCall.arg, ih]

/-! ## The graph writer: claims C8 to C10 -/

/-- The two-node graph is valid. -/
theorem twoNodeGraph_valid : twoNodeGraph.Valid := by
  unfold GenericGraph.Valid
  decide

/-- C9: over a valid graph the constructor completes, and on the writer it
leaves, also after any sequence `es` of later `getEdgeID` calls,
`getNodeID(node)` succeeds if and only if `node` is one of the node pointers of
the graph's node collection; for any other pointer it stops with the
"Node not found in the graph." assertion. -/
theorem GenericGraphWriter.getNodeID_ok_iff_mem (g : GenericGraph) (hv : g.Valid) :
    ∃ w : GenericGraphWriter, GenericGraphWriter.construct g = .ok w ∧
      ∀ (node : Ptr) (es : List Ptr),
        ((∃ id : NodeID, (w.afterEdgeIDs es).getNodeID node = .ok id) ↔ node ∈ g.nodes) ∧
        (node ∉ g.nodes → (w.afterEdgeIDs es).getNodeID node = .error Fault.nodeNotFound) := by
  refine ⟨_, GenericGraphWriter.construct_of_valid g hv, ?_⟩
  intro node es
  have habsent : node ∉ g.nodes →
      (emplaceAll Map.empty g.IDToNodeMap).find node = none :=
    fun hnot => find_emplaceAll_of_not_mem Map.empty g.IDToNodeMap node
      (Map.find_empty node) hnot
  simp only [GenericGraphWriter.getNodeID, GenericGraphWriter.afterEdgeIDs_nodeToID]
  refine ⟨⟨?_, ?_⟩, ?_⟩
  · rintro ⟨id, hid⟩
    by_contra hnot
    rw [habsent hnot] at hid
    exact Except.noConfusion hid
  · intro hmem
    obtain ⟨k, hk⟩ := find_emplaceAll_of_mem Map.empty g.IDToNodeMap node hmem
    exact ⟨k, by rw [hk]⟩
  · intro hnot
    rw [habsent hnot]

/-- Witness for C9 on the two-node graph: node 101 is found, also after a
`getEdgeID` on a new edge, and the foreign pointer 5 is not. -/
theorem GenericGraphWriter.getNodeID_ok_iff_mem_witness :
    twoNodeGraph.Valid ∧
    ∃ w : GenericGraphWriter, GenericGraphWriter.construct twoNodeGraph = .ok w ∧
      (w.afterEdgeIDs [201]).getNodeID 101 = .ok 11 ∧
      (w.afterEdgeIDs [201]).getNodeID 5 = .error Fault.nodeNotFound := by
  refine ⟨twoNodeGraph_valid, ?_⟩
  obtain ⟨w, hw, h⟩ := GenericGraphWriter.getNodeID_ok_iff_mem twoNodeGraph twoNodeGraph_valid
  refine ⟨w, hw, ?_, (h 5 [201]).2 (by decide)⟩
  have hw2 : GenericGraphWriter.construct twoNodeGraph = .ok
      ⟨twoNodeGraph, emplaceAll Map.empty twoNodeGraph.IDToNodeMap,
        PtrPool.empty.run ((twoNodeGraph.outEdgeWalk twoNodeGraph.nodes).map PoolCall.saveID)⟩ :=
    rfl
  rw [hw] at hw2
  cases hw2
  rfl

/-- C10: over a valid graph the constructor completes, and every edge in the
outgoing-edge list of any node of the node collection already has a pool
entry: `getEdgeID` on it returns an id between 1 and the pool size at the end
of construction and changes neither the pool nor the node map.  An edge is a
non-null pointer (the null pointer is the absent reference, with id 0): the
statement holds for every non-null element of the lists, and so for every
element when the lists hold edges only. -/
theorem GenericGraphWriter.outEdges_pooled (g : GenericGraph) (hv : g.Valid) :
    ∃ w : GenericGraphWriter, GenericGraphWriter.construct g = .ok w ∧
      (∀ node ∈ g.nodes, ∀ n : GenericNode, g.deref node = some n →
        ∀ e ∈ n.OutEdges, e ≠ nullptr →
          1 ≤ (w.getEdgeID e).1 ∧ (w.getEdgeID e).1 ≤ w.edgePool.ptrPool.length ∧
          (w.getEdgeID e).2.edgePool = w.edgePool ∧
          (w.getEdgeID e).2.nodeToID = w.nodeToID) ∧
      (g.OutEdgesAreEdges →
        ∀ node ∈ g.nodes, ∀ n : GenericNode, g.deref node = some n → ∀ e ∈ n.OutEdges,
          1 ≤ (w.getEdgeID e).1 ∧ (w.getEdgeID e).1 ≤ w.edgePool.ptrPool.length ∧
          (w.getEdgeID e).2.edgePool = w.edgePool ∧
          (w.getEdgeID e).2.nodeToID = w.nodeToID) := by
  have key : ∀ node ∈ g.nodes, ∀ n : GenericNode, g.deref node = some n →
      ∀ e ∈ n.OutEdges, e ≠ nullptr →
        1 ≤ ((⟨g, emplaceAll Map.empty g.IDToNodeMap, PtrPool.empty.run
          ((g.outEdgeWalk g.nodes).map PoolCall.saveID)⟩ : GenericGraphWriter).getEdgeID e).1 ∧
        ((⟨g, emplaceAll Map.empty g.IDToNodeMap, PtrPool.empty.run
          ((g.outEdgeWalk g.nodes).map PoolCall.saveID)⟩ : GenericGraphWriter).getEdgeID e).1 ≤
          (PtrPool.empty.run ((g.outEdgeWalk g.nodes).map PoolCall.saveID)).ptrPool.length ∧
        ((⟨g, emplaceAll Map.empty g.IDToNodeMap, PtrPool.empty.run
          ((g.outEdgeWalk g.nodes).map PoolCall.saveID)⟩ :
            GenericGraphWriter).getEdgeID e).2.edgePool =
          PtrPool.empty.run ((g.outEdgeWalk g.nodes).map PoolCall.saveID) ∧
        ((⟨g, emplaceAll Map.empty g.IDToNodeMap, PtrPool.empty.run
          ((g.outEdgeWalk g.nodes).map PoolCall.saveID)⟩ :
            GenericGraphWriter).getEdgeID e).2.nodeToID =
          emplaceAll Map.empty g.IDToNodeMap := by
    intro node hnode n hn e he hne
    have hinv := PtrPool.Inv_run _ PtrPool.Inv_empty
      ((g.outEdgeWalk g.nodes).map PoolCall.saveID)
    have hout : e ∈ g.outEdgesOf node := by
      simp only [GenericGraph.outEdgesOf, hn]
      exact he
    have hmem : e ∈ (PtrPool.empty.run
        ((g.outEdgeWalk g.nodes).map PoolCall.saveID)).ptrPool := by
      rw [PtrPool.mem_run PtrPool.Inv_empty, map_arg_saveID]
      exact Or.inr ⟨hne, g.mem_outEdgeWalk g.nodes node e hnode hout⟩
    obtain ⟨k, hk⟩ := (hinv.mem_iff e).mp hmem
    have hrange := hinv.id_range hk
    have hg := PtrPool.getID_of_find_some _ e k hne hk
    refine ⟨?_, ?_, ?_, ?_⟩ <;> simp only [GenericGraphWriter.getEdgeID, hg]
    · exact hrange.1
    · exact hrange.2
  refine ⟨_, GenericGraphWriter.construct_of_valid g hv, key, ?_⟩
  intro hedges node hnode n hn e he
  have hne : e ≠ nullptr := by
    intro heq
    apply hedges node hnode
    simp only [GenericGraph.outEdgesOf, hn]
    exact heq ▸ he
  exact key node hnode n hn e he hne

/-- Witness for C10: edge 200 of node 100 in the two-node graph. -/
theorem GenericGraphWriter.outEdges_pooled_witness :
    twoNodeGraph.Valid ∧
    ∃ w : GenericGraphWriter, GenericGraphWriter.construct twoNodeGraph = .ok w ∧
      1 ≤ (w.getEdgeID 200).1 ∧ (w.getEdgeID 200).1 ≤ w.edgePool.ptrPool.length ∧
      (w.getEdgeID 200).2.edgePool = w.edgePool := by
  refine ⟨twoNodeGraph_valid, ?_⟩
  obtain ⟨w, hw, h, _⟩ := GenericGraphWriter.outEdges_pooled twoNodeGraph twoNodeGraph_valid
  obtain ⟨h1, h2, h3, _⟩ := h 100 (by decide) ⟨10, 0, [], [200]⟩ rfl 200 (by decide) (by decide)
  exact ⟨w, hw, h1, h2, h3⟩

/-! ## More lemmas on the pool -/

theorem findEntries_isSome_iff {K V : Type} [DecidableEq K] (es : List (K × V)) (k : K) :
    (∃ v, findEntries es k = some v) ↔ k ∈ es.map Prod.fst := by
  induction es with
  | nil => simp [findEntries]
  | cons e es ih =>
    obtain ⟨a, b⟩ := e
    by_cases h : a = k
    · simp [findEntries, h]
    · simp only [findEntries, if_neg h, ih, List.map_cons, List.mem_cons]
      constructor
      · intro hk; exact Or.inr hk
      · rintro (hk | hk)
        · exact absurd hk.symm h
        · exact hk

/-- A key is in the container exactly when `find` does not return `end()`. -/
theorem Map.mem_keys_iff {K V : Type} [DecidableEq K] (m : Map K V) (k : K) :
    k ∈ m.keys ↔ ∃ v, m.find k = some v :=
  (findEntries_isSome_iff m.entries k).symm

/-- The vector before `getID(p)` is a prefix of the vector after it. -/
theorem PtrPool.ptrPool_prefix_getID (s : PtrPool) (p : Ptr) :
    s.ptrPool <+: (s.getID p).2.ptrPool := by
  by_cases hp : p = nullptr
  · rw [hp, PtrPool.getID_null]
  · cases hf : s.ptrToId.find p with
    | some k1 => rw [PtrPool.getID_of_find_some s _ k1 hp hf]
    | none => rw [PtrPool.getID_of_find_none s _ hp hf]; exact List.prefix_append _ _

/-- The vector before a sequence of calls is a prefix of the vector after it. -/
theorem PtrPool.ptrPool_prefix_run (s : PtrPool) (cs : List PoolCall) :
    s.ptrPool <+: (s.run cs).ptrPool := by
  induction cs generalizing s with
  | nil => exact List.prefix_refl _
  | cons c cs ih =>
    rw [PtrPool.run_cons, PtrPool.step_eq]
    exact (PtrPool.ptrPool_prefix_getID s c.arg).trans (ih _)

/-- Under the invariant, `getID` of an element of the vector returns its id
and leaves the pool as it is. -/
theorem PtrPool.Inv.getID_of_mem {s : PtrPool} (h : s.Inv) {p : Ptr} (hp : p ∈ s.ptrPool) :
    ∃ k, s.ptrToId.find p = some k ∧ s.getID p = (k, s) ∧ 1 ≤ k ∧ k ≤ s.ptrPool.length ∧
      s.ptrPool[k - 1]? = some p := by
  obtain ⟨k, hk⟩ := (h.mem_iff p).mp hp
  have hne : p ≠ nullptr := fun hnull => h.no_null (hnull ▸ hp)
  have hr := h.id_range hk
  exact ⟨k, hk, PtrPool.getID_of_find_some s p k hne hk, hr.1, hr.2,
    ((h.find_iff p k).mp hk).2⟩

/-- Under the invariant, a pointer outside the vector has no map entry. -/
theorem PtrPool.Inv.find_none_of_not_mem {s : PtrPool} (h : s.Inv) {p : Ptr}
    (hp : p ∉ s.ptrPool) : s.ptrToId.find p = none := by
  cases hf : s.ptrToId.find p with
  | none => rfl
  | some k => exact absurd ((h.mem_iff p).mpr ⟨k, hf⟩) hp

/-! ## The identity pool: claims C16 and C19 -/

/-- C16: in any pool reached from the empty pool by `getID` / `saveID` calls
the vector holds no pointer twice and never holds null; so when a non-null
descriptor `p` is registered and, after any further calls `cs` (the second
graph), registered again through the same pool, the second call returns the
same id, adds no entry, and the vector holds `p` exactly once. -/
theorem PtrPool.shared_descriptor_pooled_once (s : PtrPool) (hs : s.Reachable) :
    s.ptrPool.Nodup ∧ nullptr ∉ s.ptrPool ∧
    ∀ (p : Ptr) (cs : List PoolCall), p ≠ nullptr →
      (((s.getID p).2.run cs).getID p).1 = (s.getID p).1 ∧
      (((s.getID p).2.run cs).getID p).2 = (s.getID p).2.run cs ∧
      (((s.getID p).2.run cs).getID p).2.ptrPool.count p = 1 := by
  refine ⟨hs.inv.nodup, hs.inv.no_null, ?_⟩
  intro p cs hp
  have hr : ((s.getID p).2.run cs).Reachable := (hs.getID p).run cs
  have hf := PtrPool.find_run_of_find_some _ cs p _ (PtrPool.find_after_getID s p hp)
  have hg := PtrPool.getID_of_find_some _ p _ hp hf
  rw [hg]
  refine ⟨rfl, rfl, ?_⟩
  exact List.count_eq_one_of_mem hr.inv.nodup ((hr.inv.mem_iff p).mpr ⟨_, hf⟩)

/-- Witness for C16: descriptor 7 registered on the pool holding 5 and 7,
then again after a `saveID(9)`. -/
theorem PtrPool.shared_descriptor_pooled_once_witness :
    samplePool.Reachable ∧ (7 : Ptr) ≠ nullptr ∧
    (((samplePool.getID 7).2.run [PoolCall.saveID 9]).getID 7).1 = (samplePool.getID 7).1 ∧
    (((samplePool.getID 7).2.run [PoolCall.saveID 9]).getID 7).2.ptrPool.count 7 = 1 :=
  ⟨⟨[PoolCall.getID 5, PoolCall.saveID 7], rfl⟩, by decide,
    ((PtrPool.shared_descriptor_pooled_once samplePool
      ⟨[PoolCall.getID 5, PoolCall.saveID 7], rfl⟩).2.2 7 [PoolCall.saveID 9] (by decide)).1,
    ((PtrPool.shared_descriptor_pooled_once samplePool
      ⟨[PoolCall.getID 5, PoolCall.saveID 7], rfl⟩).2.2 7 [PoolCall.saveID 9] (by decide)).2.2⟩

/-- C19: the representation invariant of `PtrPool` holds in every pool
reached from the empty pool by its operations: the map and the vector have
the same number of entries, the keys of the map are exactly the elements of
the vector, and the map sends the element at 0-based index `i` to `i + 1`. -/
theorem PtrPool.representation_invariant (s : PtrPool) (hs : s.Reachable) :
    s.ptrToId.size = s.ptrPool.length ∧
    (∀ p : Ptr, p ∈ s.ptrToId.keys ↔ p ∈ s.ptrPool) ∧
    (∀ (i : Nat) (hi : i < s.ptrPool.length), s.ptrToId.find s.ptrPool[i] = some (i + 1)) := by
  refine ⟨hs.inv.size_eq, ?_, ?_⟩
  · intro p
    rw [Map.mem_keys_iff, hs.inv.mem_iff]
  · intro i hi
    exact (hs.inv.find_iff _ (i + 1)).mpr ⟨by omega, by simp [List.getElem?_eq_getElem hi]⟩

/-- Witness for C19 on the pool holding 5 and 7. -/
theorem PtrPool.representation_invariant_witness :
    samplePool.Reachable ∧ samplePool.ptrToId.size = samplePool.ptrPool.length ∧
    ((7 : Ptr) ∈ samplePool.ptrToId.keys ↔ (7 : Ptr) ∈ samplePool.ptrPool) ∧
    samplePool.ptrToId.find 7 = some (1 + 1) :=
  ⟨⟨[PoolCall.getID 5, PoolCall.saveID 7], rfl⟩,
    (PtrPool.representation_invariant samplePool
      ⟨[PoolCall.getID 5, PoolCall.saveID 7], rfl⟩).1,
    (PtrPool.representation_invariant samplePool
      ⟨[PoolCall.getID 5, PoolCall.saveID 7], rfl⟩).2.1 7,
    (PtrPool.representation_invariant samplePool
      ⟨[PoolCall.getID 5, PoolCall.saveID 7], rfl⟩).2.2 1 (by decide)⟩

/-! ## Lemmas on the order of the edge pool -/

theorem firstOccurrences_filter (P : Ptr → Bool) (l : List Ptr) :
    firstOccurrences (l.filter P) = (firstOccurrences l).filter P := by
  induction l with
  | nil => rfl
  | cons a l ih =>
    by_cases ha : P a = true
    · simp only [List.filter_cons_of_pos ha, firstOccurrences, ih, List.filter_filter]
      congr 1
      apply List.filter_congr
      intro x _
      exact Bool.and_comm _ _
    · simp only [List.filter_cons_of_neg ha, firstOccurrences, ih, List.filter_filter]
      apply List.filter_congr
      intro x _
      by_cases hx : P x = true
      · have hne : x ≠ a := fun h => ha (h ▸ hx)
        simp [hx, hne]
      · simp [hx]

/-- The vector after a sequence of calls: the old vector, then the first
occurrences of the non-null arguments that were not in the old vector. -/
theorem PtrPool.ptrPool_run_eq {s : PtrPool} (h : s.Inv) (cs : List PoolCall) :
    (s.run cs).ptrPool = s.ptrPool ++ firstOccurrences
      ((cs.map PoolCall.arg).filter (fun p => decide (p ≠ nullptr ∧ p ∉ s.ptrPool))) := by
  induction cs generalizing s with
  | nil => simp [PtrPool.run_nil, firstOccurrences]
  | cons c cs ih =>
    rw [PtrPool.run_cons, PtrPool.step_eq, ih (PtrPool.Inv_getID s h c.arg)]
    by_cases hp : c.arg = nullptr
    · rw [hp, PtrPool.getID_null]
      simp [List.filter_cons, hp]
    · cases hf : s.ptrToId.find c.arg with
      | some k1 =>
        rw [PtrPool.getID_of_find_some s _ k1 hp hf]
        have hmem : c.arg ∈ s.ptrPool := (h.mem_iff _).mpr ⟨k1, hf⟩
        simp [List.filter_cons, hmem]
      | none =>
        rw [PtrPool.getID_of_find_none s _ hp hf]
        have hmem : c.arg ∉ s.ptrPool := fun hm => by
          obtain ⟨k, hk⟩ := (h.mem_iff _).mp hm
          rw [hf] at hk
          exact Option.noConfusion hk
        have hkeep : List.filter (fun p => decide (p ≠ nullptr ∧ p ∉ s.ptrPool))
            (c.arg :: cs.map PoolCall.arg) =
            c.arg :: List.filter (fun p => decide (p ≠ nullptr ∧ p ∉ s.ptrPool))
              (cs.map PoolCall.arg) := by
          rw [List.filter_cons]
          simp [hp, hmem]
        simp only [List.map_cons, hkeep, firstOccurrences, List.append_assoc,
          List.singleton_append]
        congr 2
        rw [← firstOccurrences_filter, List.filter_filter]
        congr 1
        apply List.filter_congr
        intro x _
        by_cases hx1 : x = nullptr
        · simp [hx1]
        · by_cases hx2 : x ∈ s.ptrPool
          · simp [hx2]
          · by_cases hx3 : x = c.arg
            · simp [hx3]
            · simp [hx1, hx2, hx3]

/-- The edge pool the constructor leaves holds the non-null edges of the
outgoing-edge walk. -/
theorem mem_walk_pool (walk : List Ptr) (e : Ptr) :
    e ∈ (PtrPool.empty.run (walk.map PoolCall.saveID)).ptrPool ↔ e ≠ nullptr ∧ e ∈ walk := by
  rw [PtrPool.mem_run PtrPool.Inv_empty, map_arg_saveID]
  simp [PtrPool.empty]

/-- A non-null edge of the walk has an id in `1..size` in the pool the
constructor leaves, it is the element at that position, and `getID` on it
leaves the pool as it is. -/
theorem walk_pool_getID (walk : List Ptr) (e : Ptr) (hne : e ≠ nullptr) (he : e ∈ walk) :
    ∃ k, (PtrPool.empty.run (walk.map PoolCall.saveID)).getID e =
        (k, PtrPool.empty.run (walk.map PoolCall.saveID)) ∧ 1 ≤ k ∧
      k ≤ (PtrPool.empty.run (walk.map PoolCall.saveID)).ptrPool.length ∧
      (PtrPool.empty.run (walk.map PoolCall.saveID)).ptrPool[k - 1]? = some e := by
  have hinv := PtrPool.Inv_run _ PtrPool.Inv_empty (walk.map PoolCall.saveID)
  obtain ⟨k, _, h2, h3, h4, h5⟩ := hinv.getID_of_mem ((mem_walk_pool walk e).mpr ⟨hne, he⟩)
  exact ⟨k, h2, h3, h4, h5⟩

/-- In the pool the constructor leaves, an edge whose first occurrence on the
walk comes before any occurrence of another edge has the smaller id. -/
theorem walk_pool_order (pre rest : List Ptr) (e f : Ptr) (hne : e ≠ nullptr)
    (hnf : f ≠ nullptr) (hpre : e ∉ pre) (hfpre : f ∉ pre) (hfe : f ≠ e) (hf : f ∈ rest) :
    ((PtrPool.empty.run ((pre ++ e :: rest).map PoolCall.saveID)).getID e).1 <
      ((PtrPool.empty.run ((pre ++ e :: rest).map PoolCall.saveID)).getID f).1 := by
  have hrun : PtrPool.empty.run ((pre ++ e :: rest).map PoolCall.saveID) =
      (((PtrPool.empty.run (pre.map PoolCall.saveID)).getID e).2).run
        (rest.map PoolCall.saveID) := by
    rw [List.map_append, List.map_cons, PtrPool.run_append, PtrPool.run_cons]
    rfl
  rw [hrun]
  have hinv1 := PtrPool.Inv_run _ PtrPool.Inv_empty (pre.map PoolCall.saveID)
  have he1 : e ∉ (PtrPool.empty.run (pre.map PoolCall.saveID)).ptrPool :=
    fun hm => hpre ((mem_walk_pool pre e).mp hm).2
  have hf1 : f ∉ (PtrPool.empty.run (pre.map PoolCall.saveID)).ptrPool :=
    fun hm => hfpre ((mem_walk_pool pre f).mp hm).2
  have hg := PtrPool.getID_of_find_none _ e hne (hinv1.find_none_of_not_mem he1)
  have hinv2 := PtrPool.Inv_getID _ hinv1 e
  have hfind2 := PtrPool.find_after_getID (PtrPool.empty.run (pre.map PoolCall.saveID)) e hne
  generalize PtrPool.empty.run (pre.map PoolCall.saveID) = s1 at *
  have hpool2 : (s1.getID e).2.ptrPool = s1.ptrPool ++ [e] := by rw [hg]
  have hid2 : (s1.getID e).1 = 1 + s1.ptrPool.length := by rw [hg]
  have hf2 : f ∉ (s1.getID e).2.ptrPool := by
    rw [hpool2]
    simp [hf1, hfe]
  generalize (s1.getID e).2 = s2 at *
  have hinv3 := PtrPool.Inv_run s2 hinv2 (rest.map PoolCall.saveID)
  have hfind3 := PtrPool.find_run_of_find_some s2 (rest.map PoolCall.saveID) e _ hfind2
  have hmem3 : f ∈ (s2.run (rest.map PoolCall.saveID)).ptrPool := by
    rw [PtrPool.mem_run hinv2, map_arg_saveID]
    exact Or.inr ⟨hnf, hf⟩
  obtain ⟨t, ht⟩ := PtrPool.ptrPool_prefix_run s2 (rest.map PoolCall.saveID)
  obtain ⟨k, _, hgk, hk1, _, hk3⟩ := hinv3.getID_of_mem hmem3
  rw [PtrPool.getID_of_find_some _ e _ hne hfind3, hgk]
  show (s1.getID e).1 < k
  rw [hid2]
  by_contra hlt
  have hlt2 : k - 1 < s2.ptrPool.length := by
    rw [hpool2, List.length_append, List.length_singleton]
    omega
  rw [← ht, List.getElem?_append_left hlt2] at hk3
  exact hf2 (List.mem_iff_getElem?.mpr ⟨k - 1, hk3⟩)

/-! ## The graph writer: claims C11, C14 and C18 -/

/-- The chain graph is valid. -/
theorem chainGraph_valid : chainGraph.Valid := by
  unfold GenericGraph.Valid
  decide

/-- C18: lazy edge insertion.  Over a valid graph the constructor completes,
and for a non-null edge `e` that is in no outgoing-edge list walked by the
constructor, `getEdgeID(e)` returns the edge pool size plus one, appends `e`
to the pool, leaves the node-to-id map as it is, and every edge registered
before keeps its id, in the map and as the result of `getEdgeID`. -/
theorem GenericGraphWriter.getEdgeID_lazy_insertion (g : GenericGraph) (hv : g.Valid) :
    ∃ w : GenericGraphWriter, GenericGraphWriter.construct g = .ok w ∧
      ∀ e : Ptr, e ≠ nullptr → e ∉ g.outEdgeWalk g.nodes →
        (w.getEdgeID e).1 = w.edgePool.getPool.length + 1 ∧
        (w.getEdgeID e).2.edgePool.getPool = w.edgePool.getPool ++ [e] ∧
        (w.getEdgeID e).2.nodeToID = w.nodeToID ∧
        (∀ (q : Ptr) (k : Nat), w.edgePool.ptrToId.find q = some k →
          (w.getEdgeID e).2.edgePool.ptrToId.find q = some k) ∧
        (∀ q : Ptr, q ∈ w.edgePool.getPool →
          ((w.getEdgeID e).2.getEdgeID q).1 = (w.getEdgeID q).1) := by
  refine ⟨_, GenericGraphWriter.construct_of_valid g hv, ?_⟩
  intro e hne hnot
  have hinv := PtrPool.Inv_run _ PtrPool.Inv_empty
    ((g.outEdgeWalk g.nodes).map PoolCall.saveID)
  have hmem : e ∉ (PtrPool.empty.run
      ((g.outEdgeWalk g.nodes).map PoolCall.saveID)).ptrPool :=
    fun hm => hnot ((mem_walk_pool _ e).mp hm).2
  have hg := PtrPool.getID_of_find_none _ e hne (hinv.find_none_of_not_mem hmem)
  simp only [GenericGraphWriter.getEdgeID, PtrPool.getPool]
  refine ⟨?_, ?_, trivial, ?_, ?_⟩
  · rw [hg]; exact Nat.add_comm _ _
  · rw [hg]
  · intro q k hq
    exact PtrPool.find_getID_of_find_some _ e q k hq
  · intro q hq
    obtain ⟨k, hk, hgq, _⟩ := hinv.getID_of_mem hq
    have hne2 : q ≠ nullptr := fun hnull => hinv.no_null (hnull ▸ hq)
    rw [hgq, PtrPool.getID_of_find_some _ q k hne2
      (PtrPool.find_getID_of_find_some _ e q k hk)]

/-- Witness for C18 on the two-node graph: the edge 205 is in no
outgoing-edge list and gets id 2, and edge 200 keeps id 1. -/
theorem GenericGraphWriter.getEdgeID_lazy_insertion_witness :
    twoNodeGraph.Valid ∧
    ∃ w : GenericGraphWriter, GenericGraphWriter.construct twoNodeGraph = .ok w ∧
      (w.getEdgeID 205).1 = w.edgePool.getPool.length + 1 ∧
      (w.getEdgeID 205).2.edgePool.getPool = w.edgePool.getPool ++ [205] ∧
      (w.getEdgeID 205).2.nodeToID = w.nodeToID := by
  refine ⟨twoNodeGraph_valid, ?_⟩
  obtain ⟨w, hw, h⟩ :=
    GenericGraphWriter.getEdgeID_lazy_insertion twoNodeGraph twoNodeGraph_valid
  obtain ⟨h1, h2, h3, _⟩ := h 205 (by decide) (by decide)
  exact ⟨w, hw, h1, h2, h3⟩

/-! ## Renaming edge pointers -/

theorem findEntries_rename (ρ : Ptr → Ptr) (hinj : Function.Injective ρ)
    (es : List (Ptr × Nat)) (p : Ptr) :
    findEntries (es.map (fun e => (ρ e.1, e.2))) (ρ p) = findEntries es p := by
  induction es with
  | nil => rfl
  | cons e es ih =>
    obtain ⟨a, b⟩ := e
    by_cases h : a = p
    · simp [findEntries, h]
    · have h2 : ρ a ≠ ρ p := fun heq => h (hinj heq)
      simp only [List.map_cons, findEntries, if_neg h, if_neg h2]
      exact ih

theorem PtrPool.find_rename (ρ : Ptr → Ptr) (hinj : Function.Injective ρ) (s : PtrPool)
    (p : Ptr) : (s.rename ρ).ptrToId.find (ρ p) = s.ptrToId.find p :=
  findEntries_rename ρ hinj s.ptrToId.entries p

theorem PtrPool.rename_empty (ρ : Ptr → Ptr) : PtrPool.empty.rename ρ = PtrPool.empty := rfl

/-- The call `getID` commutes with an injective renaming that fixes null. -/
theorem PtrPool.getID_rename (ρ : Ptr → Ptr) (hinj : Function.Injective ρ)
    (hnull : ρ nullptr = nullptr) (s : PtrPool) (p : Ptr) :
    (s.rename ρ).getID (ρ p) = ((s.getID p).1, (s.getID p).2.rename ρ) := by
  by_cases hp : p = nullptr
  · subst hp
    rw [hnull, PtrPool.getID_null, PtrPool.getID_null]
  · have hp2 : ρ p ≠ nullptr := fun h => hp (hinj (h.trans hnull.symm))
    cases hf : s.ptrToId.find p with
    | some k =>
      have hf2 : (s.rename ρ).ptrToId.find (ρ p) = some k := by
        rw [PtrPool.find_rename ρ hinj, hf]
      rw [PtrPool.getID_of_find_some s p k hp hf,
        PtrPool.getID_of_find_some _ (ρ p) k hp2 hf2]
    | none =>
      have hf2 : (s.rename ρ).ptrToId.find (ρ p) = none := by
        rw [PtrPool.find_rename ρ hinj, hf]
      rw [PtrPool.getID_of_find_none s p hp hf,
        PtrPool.getID_of_find_none _ (ρ p) hp2 hf2]
      simp [PtrPool.rename]

/-- Registering renamed pointers gives the renamed pool. -/
theorem PtrPool.run_rename (ρ : Ptr → Ptr) (hinj : Function.Injective ρ)
    (hnull : ρ nullptr = nullptr) (s : PtrPool) (es : List Ptr) :
    (s.rename ρ).run ((es.map ρ).map PoolCall.saveID) =
      (s.run (es.map PoolCall.saveID)).rename ρ := by
  induction es generalizing s with
  | nil => rfl
  | cons e es ih =>
    simp only [List.map_cons, PtrPool.run_cons, PtrPool.step, PtrPool.saveID]
    rw [PtrPool.getID_rename ρ hinj hnull s e]
    exact ih _

theorem GenericGraph.outEdgeWalk_rename (g g1 : GenericGraph) (ρ : Ptr → Ptr)
    (nodes : List Ptr)
    (hout : ∀ node ∈ nodes, g1.outEdgesOf node = (g.outEdgesOf node).map ρ) :
    g1.outEdgeWalk nodes = (g.outEdgeWalk nodes).map ρ := by
  induction nodes with
  | nil => rfl
  | cons a rest ih =>
    simp only [GenericGraph.outEdgeWalk, List.map_append]
    rw [hout a (List.mem_cons_self _ _),
      ih (fun node hnode => hout node (List.mem_cons_of_mem _ hnode))]

theorem shiftPtr_injective : Function.Injective shiftPtr := by
  intro a b h
  simp only [shiftPtr, nullptr] at h
  split_ifs at h with ha hb hb
  · rw [ha, hb]
  · exact Nat.add_right_cancel h

theorem twoNodeGraphMoved_valid : twoNodeGraphMoved.Valid := by
  unfold GenericGraph.Valid
  decide

/-! ## The graph writer: claim C15 -/

/-- C15: construction is deterministic and does not depend on the values of
the edge pointers.  Take two valid graphs with the same node collection whose
outgoing-edge lists agree, in order, up to an injective renaming `ρ` of the
edge pointers that fixes null.  Then both constructions complete with the
same node ids, every renamed edge `ρ e` gets in the second writer the id `e`
gets in the first, and the second pool is the renamed first pool.  Any two
constructions over the one graph `g` give the same node ids and edge ids. -/
theorem GenericGraphWriter.construct_renaming_invariant (g g1 : GenericGraph)
    (ρ : Ptr → Ptr) (hinj : Function.Injective ρ) (hnull : ρ nullptr = nullptr)
    (hv : g.Valid) (hv1 : g1.Valid) (hnodes : g1.IDToNodeMap = g.IDToNodeMap)
    (hout : ∀ node ∈ g.nodes, g1.outEdgesOf node = (g.outEdgesOf node).map ρ) :
    ∃ w w1 : GenericGraphWriter,
      GenericGraphWriter.construct g = .ok w ∧ GenericGraphWriter.construct g1 = .ok w1 ∧
      (∀ node : Ptr, w1.getNodeID node = w.getNodeID node) ∧
      (∀ e : Ptr, (w1.getEdgeID (ρ e)).1 = (w.getEdgeID e).1) ∧
      w1.edgePool.getPool = w.edgePool.getPool.map ρ ∧
      (∀ w2 : GenericGraphWriter, GenericGraphWriter.construct g = .ok w2 →
        (∀ node : Ptr, w2.getNodeID node = w.getNodeID node) ∧
        (∀ e : Ptr, (w2.getEdgeID e).1 = (w.getEdgeID e).1)) := by
  refine ⟨_, _, GenericGraphWriter.construct_of_valid g hv,
    GenericGraphWriter.construct_of_valid g1 hv1, ?_, ?_, ?_, ?_⟩
  · intro node
    simp only [GenericGraphWriter.getNodeID, hnodes]
  · intro e
    have hn : g1.nodes = g.nodes := by simp only [GenericGraph.nodes, hnodes]
    have hr := PtrPool.run_rename ρ hinj hnull PtrPool.empty (g.outEdgeWalk g.nodes)
    rw [PtrPool.rename_empty] at hr
    simp only [GenericGraphWriter.getEdgeID, hn]
    rw [g.outEdgeWalk_rename g1 ρ g.nodes hout, hr, PtrPool.getID_rename ρ hinj hnull]
  · have hn : g1.nodes = g.nodes := by simp only [GenericGraph.nodes, hnodes]
    have hr := PtrPool.run_rename ρ hinj hnull PtrPool.empty (g.outEdgeWalk g.nodes)
    rw [PtrPool.rename_empty] at hr
    simp only [PtrPool.getPool, hn]
    rw [g.outEdgeWalk_rename g1 ρ g.nodes hout, hr]
    rfl
  · intro w2 hw2
    rw [GenericGraphWriter.construct_of_valid g hv] at hw2
    cases hw2
    exact ⟨fun _ => rfl, fun _ => rfl⟩

/-- Witness for C15: the two-node graph and the same graph with its edge
moved from address 200 to address 300. -/
theorem GenericGraphWriter.construct_renaming_invariant_witness :
    Function.Injective shiftPtr ∧ shiftPtr nullptr = nullptr ∧
    twoNodeGraph.Valid ∧ twoNodeGraphMoved.Valid ∧
    ∃ w w1 : GenericGraphWriter,
      GenericGraphWriter.construct twoNodeGraph = .ok w ∧
      GenericGraphWriter.construct twoNodeGraphMoved = .ok w1 ∧
      (w1.getEdgeID (shiftPtr 200)).1 = (w.getEdgeID 200).1 ∧
      w1.getNodeID 101 = w.getNodeID 101 := by
  refine ⟨shiftPtr_injective, rfl, twoNodeGraph_valid, twoNodeGraphMoved_valid, ?_⟩
  obtain ⟨w, w1, hw, hw1, h1, h2, _⟩ :=
    GenericGraphWriter.construct_renaming_invariant twoNodeGraph twoNodeGraphMoved shiftPtr
      shiftPtr_injective rfl twoNodeGraph_valid twoNodeGraphMoved_valid rfl (by decide)
  exact ⟨w, w1, hw, hw1, h2 200, h1 101⟩

/-! ## Lemmas on the encoders -/

theorem appendEach_array {σ α : Type} (toJson : σ → α → Json × σ) (items : List α)
    (acc : List Json) (st : σ) :
    appendEach toJson items (Json.array acc) st =
      (Json.array (acc ++ encodedItems toJson items st), stateAfter toJson items st) := by
  induction items generalizing acc st with
  | nil => simp [appendEach, encodedItems, stateAfter]
  | cons item rest ih =>
    simp only [appendEach, jsonAddItemToArray, encodedItems, stateAfter]
    rw [ih]
    simp

theorem encodedItems_length {σ α : Type} (toJson : σ → α → Json × σ) (items : List α)
    (st : σ) : (encodedItems toJson items st).length = items.length := by
  induction items generalizing st with
  | nil => rfl
  | cons item rest ih => simp only [encodedItems, List.length_cons, ih]

/-- The element the loop adds at position `i` is the encoding of the item at
position `i`, made in the state the earlier items left. -/
theorem encodedItems_getElem? {σ α : Type} (toJson : σ → α → Json × σ) (items : List α)
    (st : σ) (i : Nat) (hi : i < items.length) :
    (encodedItems toJson items st)[i]? =
      some (toJson (stateAfter toJson (items.take i) st) items[i]).1 := by
  induction items generalizing st i with
  | nil => simp at hi
  | cons item rest ih =>
    cases i with
    | zero => simp [encodedItems, stateAfter]
    | succ j =>
      simp only [encodedItems, List.getElem?_cons_succ, List.take_succ_cons, stateAfter,
        List.getElem_cons_succ]
      exact ih _ j (by simpa using hi)

/-- An encoder that neither reads nor changes the state gives the mapped list. -/
theorem encodedItems_pure {σ α : Type} (toJson : σ → α → Json × σ) (f : α → Json)
    (hf : ∀ s x, toJson s x = (f x, s)) (items : List α) (st : σ) :
    encodedItems toJson items st = items.map f := by
  induction items generalizing st with
  | nil => rfl
  | cons item rest ih => simp only [encodedItems, hf, List.map_cons, ih]

theorem SVFIRWriter.toJson_eq {σ α : Type} (toJsonItem : σ → α → Json × σ)
    (container : List α) (st : σ) :
    SVFIRWriter.toJson toJsonItem container st =
      (Json.array (encodedItems toJsonItem container st),
        stateAfter toJsonItem container st) := by
  simp only [SVFIRWriter.toJson, jsonCreateArray, appendEach_array, List.nil_append]

/-! ## The encoders: claims C12, C13 and C17 -/

/-- C17: the container encoder returns an array with exactly one element per
item of the collection, in iteration order; the element at position `i` is
the item encoder applied to the item at position `i` (in the state the
encoder is in after the earlier items); an empty collection gives the empty
array, and for an encoder that does not use the state the array is the
collection mapped through it. -/
theorem SVFIRWriter.toJson_container {σ α : Type} (toJsonItem : σ → α → Json × σ)
    (container : List α) (st : σ) :
    ∃ items : List Json,
      (SVFIRWriter.toJson toJsonItem container st).1 = Json.array items ∧
      items.length = container.length ∧
      (∀ (i : Nat) (hi : i < container.length),
        items[i]? = some (toJsonItem
          (SVFIRWriter.toJson toJsonItem (container.take i) st).2 container[i]).1) ∧
      (container = [] → items = []) ∧
      (∀ f : α → Json, (∀ s x, toJsonItem s x = (f x, s)) → items = container.map f) := by
  refine ⟨encodedItems toJsonItem container st, ?_, encodedItems_length _ _ _, ?_, ?_, ?_⟩
  · rw [SVFIRWriter.toJson_eq]
  · intro i hi
    rw [SVFIRWriter.toJson_eq]
    exact encodedItems_getElem? _ _ _ i hi
  · rintro rfl
    rfl
  · intro f hf
    exact encodedItems_pure toJsonItem f hf container st

/-- Witness for C17: the collection 5, 6, 7 gives the array of the three
encodings, in that order, and the empty collection gives the empty array. -/
theorem SVFIRWriter.toJson_container_witness :
    (SVFIRWriter.toJson countingEncoder [5, 6, 7] 0).1 =
      Json.array [Json.number 5, Json.number 6, Json.number 7] ∧
    (SVFIRWriter.toJson countingEncoder ([] : List Ptr) 0).1 = Json.array [] ∧
    ∃ items : List Json,
      (SVFIRWriter.toJson countingEncoder [5, 6, 7] 0).1 = Json.array items ∧
      items.length = 3 :=
  ⟨rfl, rfl,
    (SVFIRWriter.toJson_container countingEncoder [5, 6, 7] 0).imp
      (fun _ h => ⟨h.1, h.2.1⟩)⟩

/-! ## The SVFG dump tool: claim C20 -/

theorem nodeKindToString_listed (val : VFGNodeK → Int) (hval : Function.Injective val)
    (k : VFGNodeK) : nodeKindToString val (val k) = some k.spelling := by
  cases k <;> simp [nodeKindToString, VFGNodeK.spelling, hval.eq_iff]

theorem VFGNodeK.spelling_injective (k1 k2 : VFGNodeK) (h : k1.spelling = k2.spelling) :
    k1 = k2 := by
  cases k1 <;> cases k2 <;> first | rfl | (simp [VFGNodeK.spelling] at h)

theorem nodeKindToString_unlisted (val : VFGNodeK → Int) (kind : Int)
    (h : ∀ k, val k ≠ kind) : nodeKindToString val kind = none := by
  simp [nodeKindToString, fun k => (h k).symm]

theorem listedOrder_injective : Function.Injective listedOrder := by
  intro a b h
  cases a <;> cases b <;> first | rfl | (simp [listedOrder, VFGNodeK.toCtorIdx] at h)

/-- C20: whatever distinct values the 25 enumerators listed in the switch
have, `nodeKindToString` returns for each of them its own identifier
spelling, so distinct listed kinds get distinct names; and it returns no
value exactly for the kind values that are none of the 25 case labels. -/
theorem nodeKindToString_spec (val : VFGNodeK → Int) (hval : Function.Injective val) :
    (∀ k : VFGNodeK, nodeKindToString val (val k) = some k.spelling) ∧
    (∀ k1 k2 : VFGNodeK, k1 ≠ k2 →
      nodeKindToString val (val k1) ≠ nodeKindToString val (val k2)) ∧
    (∀ kind : Int, nodeKindToString val kind = none ↔ ∀ k : VFGNodeK, val k ≠ kind) := by
  refine ⟨nodeKindToString_listed val hval, ?_, ?_⟩
  · intro k1 k2 hne heq
    rw [nodeKindToString_listed val hval, nodeKindToString_listed val hval] at heq
    exact hne (VFGNodeK.spelling_injective k1 k2 (Option.some.inj heq))
  · intro kind
    constructor
    · intro hnone k hk
      rw [← hk, nodeKindToString_listed val hval] at hnone
      exact Option.noConfusion hnone
    · exact nodeKindToString_unlisted val kind

/-- Witness for C20 with the enumerators numbered in the listed order: the
value of `Store` gives "Store", and 25 and -1 give no value. -/
theorem nodeKindToString_spec_witness :
    Function.Injective listedOrder ∧
    nodeKindToString listedOrder (listedOrder VFGNodeK.Store) = some "Store" ∧
    nodeKindToString listedOrder (listedOrder VFGNodeK.Store) ≠
      nodeKindToString listedOrder (listedOrder VFGNodeK.Load) ∧
    nodeKindToString listedOrder 25 = none ∧ nodeKindToString listedOrder (-1) = none :=
  ⟨listedOrder_injective,
    (nodeKindToString_spec listedOrder listedOrder_injective).1 VFGNodeK.Store,
    (nodeKindToString_spec listedOrder listedOrder_injective).2.1 VFGNodeK.Store
      VFGNodeK.Load (by decide),
    by decide, by decide⟩

/-! ## The graph writer: claims C8 and C11 -/

/-- Pairwise distinct node pointers are stored under one id each. -/
theorem GenericGraph.oneIdPerNode_of_nodup (g : GenericGraph) (h : g.nodes.Nodup) :
    g.OneIdPerNode := by
  intro id1 id2 node h1 h2
  have hinj := List.inj_on_of_nodup_map h h1 h2 rfl
  exact (Prod.mk.inj hinj).1

/-- A collection keyed by the nodes' own ids stores a node under one id. -/
theorem GenericGraph.oneIdPerNode_of_keyed (g : GenericGraph) (h : g.KeyedByIntrinsicId) :
    g.OneIdPerNode := by
  intro id1 id2 node h1 h2
  obtain ⟨n1, hn1, rfl⟩ := h id1 node h1
  obtain ⟨n2, hn2, rfl⟩ := h id2 node h2
  rw [hn1] at hn2
  rw [Option.some.inj hn2]

/-- When no node of the entries is stored under two ids, a node absent before
the loop gets the id of any entry holding it. -/
theorem find_emplaceAll_of_entry (m : Map Ptr NodeID) (es : List (NodeID × Ptr))
    (id : NodeID) (node : Ptr) (h : m.find node = none) (hmem : (id, node) ∈ es)
    (hone : ∀ (id1 id2 : NodeID) (q : Ptr), (id1, q) ∈ es → (id2, q) ∈ es → id1 = id2) :
    (emplaceAll m es).find node = some id := by
  induction es generalizing m with
  | nil => simp at hmem
  | cons e es ih =>
    rw [emplaceAll_cons]
    by_cases he : e.2 = node
    · have hid : e.1 = id :=
        hone e.1 id node (by rw [← he]; exact List.mem_cons_self _ _) hmem
      apply find_emplaceAll_of_find_some
      rw [he, Map.find_emplace_self, Map.emplace_of_find_none m node e.1 h, hid]
    · have hmem2 : (id, node) ∈ es := by
        rcases List.mem_cons.mp hmem with heq | hm
        · exact absurd (by rw [← heq]) he
        · exact hm
      apply ih _ _ hmem2
      · intro id1 id2 q h1 h2
        exact hone id1 id2 q (List.mem_cons_of_mem _ h1) (List.mem_cons_of_mem _ h2)
      · rw [Map.find_emplace_of_ne m e.2 node e.1 he]
        exact h

/-- No null pointer is on the walk when every outgoing-edge list holds edges. -/
theorem GenericGraph.not_mem_outEdgeWalk (g : GenericGraph) (nodes : List Ptr)
    (h : ∀ node ∈ nodes, nullptr ∉ g.outEdgesOf node) : nullptr ∉ g.outEdgeWalk nodes := by
  induction nodes with
  | nil => simp [GenericGraph.outEdgeWalk]
  | cons a rest ih =>
    simp only [GenericGraph.outEdgeWalk, List.mem_append, not_or]
    exact ⟨h a (List.mem_cons_self _ _),
      ih (fun node hnode => h node (List.mem_cons_of_mem _ hnode))⟩

theorem filter_ne_nullptr_of_not_mem (l : List Ptr) (h : nullptr ∉ l) :
    l.filter (fun e => decide (e ≠ nullptr)) = l := by
  rw [List.filter_eq_self]
  intro e he
  have hne : e ≠ nullptr := fun heq => h (heq ▸ he)
  simp [hne]

/-- C8: over a valid graph in which no node is stored under two ids (a node
collection of pairwise distinct nodes, keyed by the nodes' ids), the
constructor completes, and for every entry (id, node) of `IDToNodeMap`,
`getNodeID(node)` returns that id: the id of the graph. -/
theorem GenericGraphWriter.getNodeID_of_entry (g : GenericGraph) (hv : g.Valid)
    (hone : g.OneIdPerNode) :
    ∃ w : GenericGraphWriter, GenericGraphWriter.construct g = .ok w ∧
      ∀ (id : NodeID) (node : Ptr), (id, node) ∈ g.IDToNodeMap →
        w.getNodeID node = .ok id := by
  refine ⟨_, GenericGraphWriter.construct_of_valid g hv, ?_⟩
  intro id node hmem
  have hf := find_emplaceAll_of_entry Map.empty g.IDToNodeMap id node
    (Map.find_empty node) hmem hone
  simp only [GenericGraphWriter.getNodeID, hf]

/-- Witness for C8: both entries of the two-node graph. -/
theorem GenericGraphWriter.getNodeID_of_entry_witness :
    twoNodeGraph.Valid ∧ twoNodeGraph.OneIdPerNode ∧
    ∃ w : GenericGraphWriter, GenericGraphWriter.construct twoNodeGraph = .ok w ∧
      w.getNodeID 100 = .ok 10 ∧ w.getNodeID 101 = .ok 11 := by
  have hone : twoNodeGraph.OneIdPerNode :=
    twoNodeGraph.oneIdPerNode_of_nodup (by decide)
  refine ⟨twoNodeGraph_valid, hone, ?_⟩
  obtain ⟨w, hw, h⟩ := GenericGraphWriter.getNodeID_of_entry twoNodeGraph twoNodeGraph_valid hone
  exact ⟨w, hw, h 10 100 (by decide), h 11 101 (by decide)⟩

/-- C11: edge ids follow discovery order.  Over a valid graph whose
outgoing-edge lists hold edges, the constructor completes, and the edge pool
it leaves is the concatenation of the outgoing-edge lists of the nodes, in
the stored order of the node collection, with every repeated occurrence after
the first removed; and when an edge `e` is first encountered on that walk
before any occurrence of another edge `f`, then
`getEdgeID(e) < getEdgeID(f)`. -/
theorem GenericGraphWriter.edgePool_discovery_order (g : GenericGraph) (hv : g.Valid)
    (hedges : g.OutEdgesAreEdges) :
    ∃ w : GenericGraphWriter, GenericGraphWriter.construct g = .ok w ∧
      w.edgePool.getPool = firstOccurrences (g.outEdgeWalk g.nodes) ∧
      ∀ (pre rest : List Ptr) (e f : Ptr), g.outEdgeWalk g.nodes = pre ++ e :: rest →
        e ∉ pre → f ∉ pre → f ≠ e → f ∈ rest →
          (w.getEdgeID e).1 < (w.getEdgeID f).1 := by
  have hnull : nullptr ∉ g.outEdgeWalk g.nodes := g.not_mem_outEdgeWalk g.nodes hedges
  refine ⟨_, GenericGraphWriter.construct_of_valid g hv, ?_, ?_⟩
  · simp only [PtrPool.getPool]
    rw [PtrPool.ptrPool_run_eq PtrPool.Inv_empty, map_arg_saveID]
    have hfilter : List.filter (fun p => decide (p ≠ nullptr ∧ p ∉ PtrPool.empty.ptrPool))
        (g.outEdgeWalk g.nodes) =
        List.filter (fun e => decide (e ≠ nullptr)) (g.outEdgeWalk g.nodes) := by
      apply List.filter_congr
      intro x _
      simp [PtrPool.empty]
    rw [hfilter, filter_ne_nullptr_of_not_mem _ hnull]
    simp [PtrPool.empty]
  · intro pre rest e f hsplit hpre hfpre hfe hf
    have hne : e ≠ nullptr := by
      intro heq
      apply hnull
      rw [hsplit, ← heq]
      simp
    have hnf : f ≠ nullptr := by
      intro heq
      apply hnull
      rw [hsplit, ← heq]
      simp [hf]
    simp only [GenericGraphWriter.getEdgeID, hsplit]
    exact walk_pool_order pre rest e f hne hnf hpre hfpre hfe hf

/-- The outgoing-edge lists of the chain graph hold edges. -/
theorem chainGraph_outEdgesAreEdges : chainGraph.OutEdgesAreEdges := by
  unfold GenericGraph.OutEdgesAreEdges
  decide

/-- Witness for C11 on the chain graph: the pool is 200, 201, 202 and edge
201 gets a smaller id than edge 202. -/
theorem GenericGraphWriter.edgePool_discovery_order_witness :
    chainGraph.Valid ∧ chainGraph.OutEdgesAreEdges ∧
    ∃ w : GenericGraphWriter, GenericGraphWriter.construct chainGraph = .ok w ∧
      w.edgePool.getPool = [200, 201, 202] ∧
      (w.getEdgeID 201).1 < (w.getEdgeID 202).1 := by
  refine ⟨chainGraph_valid, chainGraph_outEdgesAreEdges, ?_⟩
  obtain ⟨w, hw, h1, h2⟩ := GenericGraphWriter.edgePool_discovery_order chainGraph
    chainGraph_valid chainGraph_outEdgesAreEdges
  refine ⟨w, hw, ?_, ?_⟩
  · rw [h1]
    decide
  · exact h2 [200] [202] 201 202 (by decide) (by decide) (by decide) (by decide)
      (by decide)

/-! ## Lemmas on `genericGraphToJson` and the live edge pool -/

theorem GenericGraphWriter.afterEdgeIDs_nil (w : GenericGraphWriter) :
    w.afterEdgeIDs [] = w := rfl

theorem GenericGraphWriter.afterEdgeIDs_cons (w : GenericGraphWriter) (e : Ptr)
    (es : List Ptr) : w.afterEdgeIDs (e :: es) = (w.getEdgeID e).2.afterEdgeIDs es := rfl

theorem GenericGraphWriter.afterEdgeIDs_append (w : GenericGraphWriter) (es fs : List Ptr) :
    w.afterEdgeIDs (es ++ fs) = (w.afterEdgeIDs es).afterEdgeIDs fs := by
  simp [GenericGraphWriter.afterEdgeIDs, List.foldl_append]

theorem GenericGraphWriter.afterEdgeIDs_graph (w : GenericGraphWriter) (es : List Ptr) :
    (w.afterEdgeIDs es).graph = w.graph := by
  induction es generalizing w with
  | nil => rfl
  | cons e es ih => exact ih (w.getEdgeID e).2

/-- The edge pool after `getEdgeID` calls is the pool after the `getID` calls. -/
theorem GenericGraphWriter.afterEdgeIDs_edgePool (w : GenericGraphWriter) (es : List Ptr) :
    (w.afterEdgeIDs es).edgePool = w.edgePool.run (es.map PoolCall.getID) := by
  induction es generalizing w with
  | nil => rfl
  | cons e es ih =>
    rw [GenericGraphWriter.afterEdgeIDs_cons, ih]
    rfl

theorem map_arg_getID (es : List Ptr) : (es.map PoolCall.getID).map PoolCall.arg = es := by
  induction es with
  | nil => rfl
  | cons e es ih => simp only [List.map_cons, PoolCall.arg, ih]

/-- Under the invariant the pointers with id `i + 1` are exactly the element
of the vector at index `i`. -/
theorem PtrPool.Inv.getID_eq_succ_iff {s : PtrPool} (h : s.Inv) (i : Nat)
    (hi : i < s.ptrPool.length) (e : Ptr) : (s.getID e).1 = i + 1 ↔ e = s.ptrPool[i] := by
  have hget : s.ptrPool[i]? = some s.ptrPool[i] := List.getElem?_eq_getElem hi
  constructor
  · intro hid
    by_cases hne : e = nullptr
    · rw [hne, PtrPool.getID_null] at hid
      exact absurd hid (by simp)
    · cases hf : s.ptrToId.find e with
      | some k =>
        rw [PtrPool.getID_of_find_some _ e k hne hf] at hid
        have hk : k = i + 1 := hid
        subst hk
        have h2 := ((h.find_iff e (i + 1)).mp hf).2
        simp only [Nat.add_sub_cancel] at h2
        rw [hget] at h2
        exact (Option.some.inj h2).symm
      | none =>
        rw [PtrPool.getID_of_find_none _ e hne hf] at hid
        have hk : 1 + s.ptrPool.length = i + 1 := hid
        omega
  · intro he
    have hmem : e ∈ s.ptrPool := he ▸ List.getElem_mem hi
    have hne : e ≠ nullptr := fun hnull => h.no_null (hnull ▸ hmem)
    have hf : s.ptrToId.find e = some (i + 1) :=
      (h.find_iff e (i + 1)).mpr ⟨by omega, by simp [he]⟩
    rw [PtrPool.getID_of_find_some _ e (i + 1) hne hf]

/-- The edge loop either stops on invalidated iterators, or it adds the
encodings of all elements in order and the vector is what it was. -/
theorem edgeLoop_array {σ : Type} (virtToJson : σ → Ptr → Json × σ)
    (edgePool : σ → List Ptr) (todo : List Ptr) (acc : List Json) (st : σ) :
    edgeLoop virtToJson edgePool todo (Json.array acc) st =
        .error Fault.iteratorInvalidated ∨
    (edgeLoop virtToJson edgePool todo (Json.array acc) st =
        .ok (Json.array (acc ++ encodedItems virtToJson todo st),
          stateAfter virtToJson todo st) ∧
      edgePool (stateAfter virtToJson todo st) = edgePool st) := by
  induction todo generalizing acc st with
  | nil => exact Or.inr ⟨by simp [edgeLoop, encodedItems, stateAfter], rfl⟩
  | cons edge todo ih =>
    by_cases hstab : edgePool (virtToJson st edge).2 = edgePool st
    · rcases ih (acc ++ [(virtToJson st edge).1]) (virtToJson st edge).2 with herr | ⟨hok, hpool⟩
      · left
        simp only [edgeLoop, hstab, if_true, jsonAddItemToArray]
        exact herr
      · right
        refine ⟨?_, ?_⟩
        · simp only [edgeLoop, hstab, if_true, jsonAddItemToArray, encodedItems, stateAfter]
          rw [hok]
          simp
        · simp only [stateAfter]
          rw [hpool, hstab]
    · left
      simp only [edgeLoop, hstab, if_false]

/-- The edge loop completes when the encoder leaves the vector as it is. -/
theorem edgeLoop_of_leaves {σ : Type} (virtToJson : σ → Ptr → Json × σ)
    (edgePool : σ → List Ptr) (hl : ∀ s e, edgePool (virtToJson s e).2 = edgePool s)
    (todo : List Ptr) (acc : List Json) (st : σ) :
    edgeLoop virtToJson edgePool todo (Json.array acc) st =
      .ok (Json.array (acc ++ encodedItems virtToJson todo st),
        stateAfter virtToJson todo st) := by
  induction todo generalizing acc st with
  | nil => simp [edgeLoop, encodedItems, stateAfter]
  | cons edge todo ih =>
    simp only [edgeLoop, hl, if_true, jsonAddItemToArray, encodedItems, stateAfter]
    rw [ih]
    simp

/-- The state the node loop leaves is the state after the node encodings. -/
theorem nodeLoop_state {σ : Type} (ops : JsonMapOps) (virtToJson : σ → Ptr → Json × σ)
    (entries : List (NodeID × Ptr)) (map : Json) (st : σ) :
    (nodeLoop ops virtToJson entries map st).2 =
      stateAfter virtToJson (entries.map Prod.snd) st := by
  induction entries generalizing map st with
  | nil => rfl
  | cons pair rest ih =>
    simp only [nodeLoop, List.map_cons, stateAfter]
    exact ih _ _

/-- What `genericGraphToJson` returns: a fault on invalidated iterators, or
the object with the three fields, the state after all encodings, and the
vector as the node loop left it. -/
theorem SVFIRWriter.genericGraphToJson_cases {σ : Type} (ops : JsonMapOps)
    (virtToJsonNode virtToJsonEdge : σ → Ptr → Json × σ) (graph : GenericGraph)
    (edgePool : σ → List Ptr) (st : σ) :
    SVFIRWriter.genericGraphToJson ops virtToJsonNode virtToJsonEdge graph edgePool st =
        .error Fault.iteratorInvalidated ∨
    (SVFIRWriter.genericGraphToJson ops virtToJsonNode virtToJsonEdge graph edgePool st =
        .ok (Json.object [("edgeNum", Json.number graph.edgeNum),
          ("nodeNum", Json.number graph.nodeNum),
          ("edges", Json.array (encodedItems virtToJsonEdge
            (edgePool (nodeLoop ops virtToJsonNode graph.IDToNodeMap ops.jsonCreateMap st).2)
            (nodeLoop ops virtToJsonNode graph.IDToNodeMap ops.jsonCreateMap st).2))],
          stateAfter virtToJsonEdge
            (edgePool (nodeLoop ops virtToJsonNode graph.IDToNodeMap ops.jsonCreateMap st).2)
            (nodeLoop ops virtToJsonNode graph.IDToNodeMap ops.jsonCreateMap st).2) ∧
      edgePool (stateAfter virtToJsonEdge
          (edgePool (nodeLoop ops virtToJsonNode graph.IDToNodeMap ops.jsonCreateMap st).2)
          (nodeLoop ops virtToJsonNode graph.IDToNodeMap ops.jsonCreateMap st).2) =
        edgePool (nodeLoop ops virtToJsonNode graph.IDToNodeMap ops.jsonCreateMap st).2) := by
  rcases edgeLoop_array virtToJsonEdge edgePool
      (edgePool (nodeLoop ops virtToJsonNode graph.IDToNodeMap ops.jsonCreateMap st).2) []
      (nodeLoop ops virtToJsonNode graph.IDToNodeMap ops.jsonCreateMap st).2 with herr | ⟨hok, hpool⟩
  · left
    simp only [SVFIRWriter.genericGraphToJson, jsonCreateArray, herr]
  · right
    refine ⟨?_, hpool⟩
    simp only [SVFIRWriter.genericGraphToJson, jsonCreateArray, hok, jsonCreateObject,
      jsonAddItemToObject, toJsonNumber, List.nil_append, List.cons_append]

/-- Encoders that reach the writer only through `getEdgeID` leave, after any
number of encodings, the writer after some `getEdgeID` calls. -/
theorem stateAfter_usesGetEdgeID {σ : Type} (writer : σ → GenericGraphWriter)
    (enc : σ → Ptr → Json × σ) (h : UsesGetEdgeID writer enc) (xs : List Ptr) (s : σ) :
    ∃ es : List Ptr, writer (stateAfter enc xs s) = (writer s).afterEdgeIDs es := by
  induction xs generalizing s with
  | nil => exact ⟨[], rfl⟩
  | cons x xs ih =>
    obtain ⟨es0, h0⟩ := h s x
    obtain ⟨es1, h1⟩ := ih (enc s x).2
    refine ⟨es0 ++ es1, ?_⟩
    simp only [stateAfter]
    rw [h1, h0, GenericGraphWriter.afterEdgeIDs_append]

/-- Node encoders that emit the generic node fields have, after the nodes
`xs`, called `getEdgeID` on every element of their `InEdges` and `OutEdges`. -/
theorem stateAfter_referencesEdgeFields {σ : Type} (writer : σ → GenericGraphWriter)
    (enc : σ → Ptr → Json × σ) (h : ReferencesEdgeFields writer enc) (xs : List Ptr) (s : σ) :
    ∃ es : List Ptr, writer (stateAfter enc xs s) = (writer s).afterEdgeIDs es ∧
      ∀ p ∈ xs, ∀ n : GenericNode, (writer s).graph.deref p = some n →
        ∀ e : Ptr, (e ∈ n.InEdges ∨ e ∈ n.OutEdges) → e ∈ es := by
  induction xs generalizing s with
  | nil => exact ⟨[], rfl, by simp⟩
  | cons x xs ih =>
    obtain ⟨es0, h0, hin0⟩ := h s x
    obtain ⟨es1, h1, hin1⟩ := ih (enc s x).2
    have hgraph : (writer (enc s x).2).graph = (writer s).graph := by
      rw [h0, GenericGraphWriter.afterEdgeIDs_graph]
    refine ⟨es0 ++ es1, ?_, ?_⟩
    · simp only [stateAfter]
      rw [h1, h0, GenericGraphWriter.afterEdgeIDs_append]
    · intro p hp n hn e he
      rcases List.mem_cons.mp hp with rfl | hp2
      · exact List.mem_append_left _ (hin0 n hn e he)
      · exact List.mem_append_right _ (hin1 p hp2 n (by rw [hgraph]; exact hn) e he)

/-- A pool that was reached from the empty pool stays so over `getEdgeID` calls. -/
theorem GenericGraphWriter.afterEdgeIDs_reachable (w : GenericGraphWriter) (es : List Ptr)
    (h : w.edgePool.Reachable) : (w.afterEdgeIDs es).edgePool.Reachable := by
  rw [GenericGraphWriter.afterEdgeIDs_edgePool]
  exact h.run _

/-- A non-null edge passed to `getEdgeID` is in the pool afterwards. -/
theorem GenericGraphWriter.mem_afterEdgeIDs (w : GenericGraphWriter) (es : List Ptr)
    (h : w.edgePool.Reachable) (e : Ptr) (hne : e ≠ nullptr) (he : e ∈ es) :
    e ∈ (w.afterEdgeIDs es).edgePool.ptrPool := by
  rw [GenericGraphWriter.afterEdgeIDs_edgePool, PtrPool.mem_run h.inv, map_arg_getID]
  exact Or.inr ⟨hne, he⟩

theorem stateAfter_toJsonEdgeRef (es : List Ptr) (w : GenericGraphWriter) :
    stateAfter SVFIRWriter.toJsonEdgeRef es w = w.afterEdgeIDs es := by
  induction es generalizing w with
  | nil => rfl
  | cons e es ih =>
    simp only [stateAfter, GenericGraphWriter.afterEdgeIDs_cons]
    exact ih _

/-- The writer after `genericNodeToJson`: the `getEdgeID` calls for the
`InEdges`, then those for the `OutEdges`. -/
theorem SVFIRWriter.genericNodeToJson_state (w : GenericGraphWriter) (node : Ptr)
    (n : GenericNode) (hn : w.graph.deref node = some n) :
    ∃ root : Json, SVFIRWriter.genericNodeToJson w node =
      .ok (root, w.afterEdgeIDs (n.InEdges ++ n.OutEdges)) := by
  simp only [SVFIRWriter.genericNodeToJson, hn, SVFIRWriter.toJson_eq,
    stateAfter_toJsonEdgeRef, GenericGraphWriter.afterEdgeIDs_append]
  exact ⟨_, rfl⟩

/-- The test node encoder emits the generic node fields. -/
theorem genericNodeEncoder_references :
    ReferencesEdgeFields (fun w : GenericGraphWriter => w) genericNodeEncoder := by
  intro w p
  cases hd : w.graph.deref p with
  | none =>
    refine ⟨[], ?_, ?_⟩
    · simp only [genericNodeEncoder, SVFIRWriter.genericNodeToJson, hd]
      rfl
    · intro n hn
      exact Option.noConfusion hn
  | some n =>
    obtain ⟨root, hroot⟩ := SVFIRWriter.genericNodeToJson_state w p n hd
    refine ⟨n.InEdges ++ n.OutEdges, ?_, ?_⟩
    · simp only [genericNodeEncoder, hroot]
    · intro n2 hn2 e he
      have : n2 = n := (Option.some.inj hn2).symm
      subst this
      exact List.mem_append.mpr he

theorem addressEncoder_uses :
    UsesGetEdgeID (fun w : GenericGraphWriter => w) addressEncoder :=
  fun _ _ => ⟨[], rfl⟩

theorem addressEncoder_leaves :
    LeavesEdgePool (fun w : GenericGraphWriter => w) addressEncoder :=
  fun _ _ => rfl

theorem UsesGetEdgeID.of_references {σ : Type} {writer : σ → GenericGraphWriter}
    {enc : σ → Ptr → Json × σ} (h : ReferencesEdgeFields writer enc) :
    UsesGetEdgeID writer enc := by
  intro s p
  obtain ⟨es, hes, _⟩ := h s p
  exact ⟨es, hes⟩

/-! ## The encoders: claims C12, C13 and C14 -/

/-- C12, the code at the failing input and at every input: when
`genericGraphToJson` returns, the object it returns has exactly the three
fields `edgeNum`, `nodeNum` and `edges` (and the only other outcome is a
fault of the edge loop).  The node map the function fills, which for the
two-node graph holds the two pairs keyed 10 and 11, is not a field of it: the
section has three of the four parts of the claim. -/
theorem SVFIRWriter.genericGraphToJson_drops_node_map :
    (∀ (σ : Type) (ops : JsonMapOps) (virtToJsonNode virtToJsonEdge : σ → Ptr → Json × σ)
      (graph : GenericGraph) (edgePool : σ → List Ptr) (st : σ),
      SVFIRWriter.genericGraphToJson ops virtToJsonNode virtToJsonEdge graph edgePool st =
          .error Fault.iteratorInvalidated ∨
      ∃ r : Json × σ,
        SVFIRWriter.genericGraphToJson ops virtToJsonNode virtToJsonEdge graph edgePool st =
          .ok r ∧ r.1.fieldNames = ["edgeNum", "nodeNum", "edges"]) ∧
    SVFIRWriter.genericGraphToJson pairArrayOps countingEncoder countingEncoder
      twoNodeGraph (fun _ => [200]) 0 =
      .ok (Json.object [("edgeNum", Json.number 1), ("nodeNum", Json.number 2),
        ("edges", Json.array [Json.number 200])], 3) ∧
    (nodeLoop pairArrayOps countingEncoder twoNodeGraph.IDToNodeMap
      pairArrayOps.jsonCreateMap 0).1 =
      Json.array [Json.array [Json.number 10, Json.number 100],
        Json.array [Json.number 11, Json.number 101]] := by
  refine ⟨?_, rfl, rfl⟩
  intro σ ops virtToJsonNode virtToJsonEdge graph edgePool st
  rcases SVFIRWriter.genericGraphToJson_cases ops virtToJsonNode virtToJsonEdge graph
    edgePool st with herr | ⟨hok, _⟩
  · exact Or.inl herr
  · exact Or.inr ⟨_, hok, rfl⟩

/-- C13: take a writer whose edge pool was reached from the empty pool, and
content encoders that reach it only through `getEdgeID`; `genericGraphToJson`
walks the live vector of that pool.  Whenever it returns, the `edges` field
of the object is an array with exactly one element per edge of the pool (as
the call leaves it, the edges the node loop registered included); for each
position `i` the edges with `getEdgeID` equal to `i + 1` are exactly the pool
element at `i`, and the array element at `i` is the content encoding of that
edge (made in the state the node loop and the earlier edges left).  And it
does return when the edge encoder leaves the vector of the pool as it is. -/
theorem SVFIRWriter.genericGraphToJson_edges_in_id_order {σ : Type} (ops : JsonMapOps)
    (virtToJsonNode virtToJsonEdge : σ → Ptr → Json × σ)
    (writer : σ → GenericGraphWriter) (graph : GenericGraph) (st : σ)
    (hs : (writer st).edgePool.Reachable)
    (hn : UsesGetEdgeID writer virtToJsonNode) (he : UsesGetEdgeID writer virtToJsonEdge) :
    (∀ r : Json × σ,
      SVFIRWriter.genericGraphToJson ops virtToJsonNode virtToJsonEdge graph
        (fun s => (writer s).edgePool.getPool) st = .ok r →
      ∃ items : List Json, r.1.field "edges" = some (Json.array items) ∧
        items.length = (writer r.2).edgePool.getPool.length ∧
        ∀ (i : Nat) (hi : i < (writer r.2).edgePool.getPool.length),
          (∀ e : Ptr, ((writer r.2).getEdgeID e).1 = i + 1 ↔
            e = (writer r.2).edgePool.getPool[i]) ∧
          items[i]? = some (virtToJsonEdge
            (stateAfter virtToJsonEdge ((writer r.2).edgePool.getPool.take i)
              (nodeLoop ops virtToJsonNode graph.IDToNodeMap ops.jsonCreateMap st).2)
            (writer r.2).edgePool.getPool[i]).1) ∧
    (LeavesEdgePool writer virtToJsonEdge →
      ∃ r : Json × σ, SVFIRWriter.genericGraphToJson ops virtToJsonNode virtToJsonEdge graph
        (fun s => (writer s).edgePool.getPool) st = .ok r) := by
  constructor
  · intro r hr
    rcases SVFIRWriter.genericGraphToJson_cases ops virtToJsonNode virtToJsonEdge graph
      (fun s => (writer s).edgePool.getPool) st with herr | ⟨hok, hpool⟩
    · rw [herr] at hr
      exact Except.noConfusion hr
    · rw [hok] at hr
      have hr2 := (Except.ok.inj hr).symm
      subst hr2
      have hst1 : ∃ es, writer (nodeLoop ops virtToJsonNode graph.IDToNodeMap
          ops.jsonCreateMap st).2 = (writer st).afterEdgeIDs es := by
        rw [nodeLoop_state]
        exact stateAfter_usesGetEdgeID writer virtToJsonNode hn _ st
      generalize (nodeLoop ops virtToJsonNode graph.IDToNodeMap ops.jsonCreateMap st).2 = st1
        at hpool hst1 ⊢
      obtain ⟨es1, hes1⟩ := hst1
      obtain ⟨es2, hes2⟩ := stateAfter_usesGetEdgeID writer virtToJsonEdge he
        ((writer st1).edgePool.getPool) st1
      have hreach : (writer (stateAfter virtToJsonEdge (writer st1).edgePool.getPool
          st1)).edgePool.Reachable := by
        rw [hes2, hes1]
        exact GenericGraphWriter.afterEdgeIDs_reachable _ _
          (GenericGraphWriter.afterEdgeIDs_reachable _ _ hs)
      simp only at hpool ⊢
      refine ⟨encodedItems virtToJsonEdge (writer st1).edgePool.getPool st1,
        by simp [Json.field, findEntries], ?_, ?_⟩
      · rw [encodedItems_length, hpool]
      · intro i hi
        refine ⟨fun e => hreach.inv.getID_eq_succ_iff i hi e, ?_⟩
        simp only [hpool]
        exact encodedItems_getElem? _ _ _ i (by rw [← hpool]; exact hi)
  · intro hl
    rcases SVFIRWriter.genericGraphToJson_cases ops virtToJsonNode virtToJsonEdge graph
      (fun s => (writer s).edgePool.getPool) st with herr | ⟨hok, _⟩
    · exfalso
      have hfine := edgeLoop_of_leaves virtToJsonEdge (fun s => (writer s).edgePool.getPool)
        (fun s e => hl s e)
        ((writer (nodeLoop ops virtToJsonNode graph.IDToNodeMap
          ops.jsonCreateMap st).2).edgePool.getPool) []
        (nodeLoop ops virtToJsonNode graph.IDToNodeMap ops.jsonCreateMap st).2
      simp only [SVFIRWriter.genericGraphToJson, jsonCreateArray, hfine] at herr
      exact Except.noConfusion herr
    · exact ⟨_, hok⟩

/-- Witness for C13: the writer constructed over `inOnlyEdgeGraph`, with the
generic node fields as node content; the node loop registers the edge 200,
and the `edges` array has one element for it. -/
theorem SVFIRWriter.genericGraphToJson_edges_in_id_order_witness :
    inOnlyEdgeWriter.edgePool.Reachable ∧
    UsesGetEdgeID (fun w : GenericGraphWriter => w) genericNodeEncoder ∧
    UsesGetEdgeID (fun w : GenericGraphWriter => w) addressEncoder ∧
    LeavesEdgePool (fun w : GenericGraphWriter => w) addressEncoder ∧
    (SVFIRWriter.genericGraphToJson pairArrayOps genericNodeEncoder addressEncoder
      inOnlyEdgeGraph (fun w => w.edgePool.getPool) inOnlyEdgeWriter).map
        (fun r => (r.1, r.2.edgePool.getPool)) =
      .ok (Json.object [("edgeNum", Json.number 1), ("nodeNum", Json.number 1),
        ("edges", Json.array [Json.number 200])], [200]) ∧
    ∃ (r : Json × GenericGraphWriter) (items : List Json),
      SVFIRWriter.genericGraphToJson pairArrayOps genericNodeEncoder addressEncoder
        inOnlyEdgeGraph (fun w => w.edgePool.getPool) inOnlyEdgeWriter = .ok r ∧
      r.1.field "edges" = some (Json.array items) ∧
      items.length = r.2.edgePool.getPool.length := by
  have hs : inOnlyEdgeWriter.edgePool.Reachable := ⟨[], rfl⟩
  have hn := UsesGetEdgeID.of_references genericNodeEncoder_references
  have h := SVFIRWriter.genericGraphToJson_edges_in_id_order pairArrayOps genericNodeEncoder
    addressEncoder (fun w : GenericGraphWriter => w) inOnlyEdgeGraph inOnlyEdgeWriter hs hn
    addressEncoder_uses
  obtain ⟨r, hr⟩ := h.2 addressEncoder_leaves
  obtain ⟨items, h1, h2, _⟩ := h.1 r hr
  exact ⟨hs, hn, addressEncoder_uses, addressEncoder_leaves, rfl, r, items, hr, h1, h2⟩

/-- C14, the claim as stated fails: over `inOnlyEdgeGraph` the constructor
pools no edge; the incoming-edge list of node 101 holds the edge 200, which
the node content references with id 1; the `edges` array emitted for the
graph has the one entry of edge 200, so the reference resolves to an entry
of the emitted array, but its id is not between 1 and the number of edges
pooled at construction, which is 0. -/
theorem SVFIRWriter.inEdge_reference_counterexample :
    GenericGraphWriter.construct inOnlyEdgeGraph = .ok inOnlyEdgeWriter ∧
    inOnlyEdgeWriter.edgePool.getPool.length = 0 ∧
    (101 : Ptr) ∈ inOnlyEdgeGraph.nodes ∧
    inOnlyEdgeGraph.deref 101 = some ⟨11, 0, [200], []⟩ ∧
    (genericNodeEncoder inOnlyEdgeWriter 101).1 =
      Json.object [("id", Json.number 11), ("nodeKind", Json.number 0),
        ("InEdges", Json.array [Json.number 1]), ("OutEdges", Json.array [])] ∧
    ∃ r : Json × GenericGraphWriter,
      SVFIRWriter.genericGraphToJson pairArrayOps genericNodeEncoder addressEncoder
        inOnlyEdgeGraph (fun w => w.edgePool.getPool) inOnlyEdgeWriter = .ok r ∧
      r.1 = Json.object [("edgeNum", Json.number 1), ("nodeNum", Json.number 1),
        ("edges", Json.array [Json.number 200])] ∧
      (r.2.getEdgeID 200).1 = 1 ∧
      ¬ ((r.2.getEdgeID 200).1 ≤ inOnlyEdgeWriter.edgePool.getPool.length) := by
  refine ⟨rfl, rfl, by decide, by decide, rfl, _, rfl, rfl, rfl, by decide⟩

/-- C14, amended: no dangling edge references.  Take the writer constructed
over a graph, node content encoders that emit the generic node fields
(`InEdges` and `OutEdges` as references, through `getEdgeID`) and edge content
encoders that leave the edge pool as it is.  Then `genericGraphToJson`
returns, and every edge (non-null pointer) listed in the `InEdges` or
`OutEdges` field of a node of the node collection has an edge id between 1
and the number of entries of the `edges` array emitted for the graph, and
the entry at that position is the content encoding of that edge.  The array
has at least as many entries as edges were pooled at construction. -/
theorem SVFIRWriter.no_dangling_edge_refs {σ : Type} (ops : JsonMapOps)
    (virtToJsonNode virtToJsonEdge : σ → Ptr → Json × σ)
    (writer : σ → GenericGraphWriter) (g : GenericGraph) (st : σ)
    (hw : GenericGraphWriter.construct g = .ok (writer st))
    (hn : ReferencesEdgeFields writer virtToJsonNode)
    (he : UsesGetEdgeID writer virtToJsonEdge) (hl : LeavesEdgePool writer virtToJsonEdge) :
    ∃ (r : Json × σ) (items : List Json),
      SVFIRWriter.genericGraphToJson ops virtToJsonNode virtToJsonEdge g
        (fun s => (writer s).edgePool.getPool) st = .ok r ∧
      r.1.field "edges" = some (Json.array items) ∧
      (writer st).edgePool.getPool.length ≤ items.length ∧
      ∀ node ∈ g.nodes, ∀ n : GenericNode, g.deref node = some n →
        ∀ e : Ptr, (e ∈ n.InEdges ∨ e ∈ n.OutEdges) → e ≠ nullptr →
          1 ≤ ((writer r.2).getEdgeID e).1 ∧
          ((writer r.2).getEdgeID e).1 ≤ items.length ∧
          items[((writer r.2).getEdgeID e).1 - 1]? = some (virtToJsonEdge
            (stateAfter virtToJsonEdge
              ((writer r.2).edgePool.getPool.take (((writer r.2).getEdgeID e).1 - 1))
              (nodeLoop ops virtToJsonNode g.IDToNodeMap ops.jsonCreateMap st).2) e).1 := by
  have hv : g.Valid := (GenericGraphWriter.construct_ok_iff_valid g).mp ⟨_, hw⟩
  have hw2 := GenericGraphWriter.construct_of_valid g hv
  rw [hw] at hw2
  have hwst := Except.ok.inj hw2
  have hgraph : (writer st).graph = g := by rw [hwst]
  have hs : (writer st).edgePool.Reachable := by
    rw [hwst]
    exact ⟨_, rfl⟩
  rcases SVFIRWriter.genericGraphToJson_cases ops virtToJsonNode virtToJsonEdge g
    (fun s => (writer s).edgePool.getPool) st with herr | ⟨hok, hpool⟩
  · exfalso
    have hfine := edgeLoop_of_leaves virtToJsonEdge (fun s => (writer s).edgePool.getPool)
      (fun s e => hl s e)
      ((writer (nodeLoop ops virtToJsonNode g.IDToNodeMap
        ops.jsonCreateMap st).2).edgePool.getPool) []
      (nodeLoop ops virtToJsonNode g.IDToNodeMap ops.jsonCreateMap st).2
    simp only [SVFIRWriter.genericGraphToJson, jsonCreateArray, hfine] at herr
    exact Except.noConfusion herr
  · have hst1 : ∃ es, writer (nodeLoop ops virtToJsonNode g.IDToNodeMap
        ops.jsonCreateMap st).2 = (writer st).afterEdgeIDs es ∧
        ∀ p ∈ g.nodes, ∀ n : GenericNode, (writer st).graph.deref p = some n →
          ∀ e : Ptr, (e ∈ n.InEdges ∨ e ∈ n.OutEdges) → e ∈ es := by
      rw [nodeLoop_state]
      exact stateAfter_referencesEdgeFields writer virtToJsonNode hn _ st
    refine ⟨_, encodedItems virtToJsonEdge
      (writer (nodeLoop ops virtToJsonNode g.IDToNodeMap
        ops.jsonCreateMap st).2).edgePool.getPool
      (nodeLoop ops virtToJsonNode g.IDToNodeMap ops.jsonCreateMap st).2,
      hok, by simp [Json.field, findEntries], ?_, ?_⟩
    · generalize (nodeLoop ops virtToJsonNode g.IDToNodeMap ops.jsonCreateMap st).2 = st1
        at hst1 ⊢
      obtain ⟨es1, hes1, _⟩ := hst1
      rw [encodedItems_length, hes1, GenericGraphWriter.afterEdgeIDs_edgePool]
      obtain ⟨t, ht⟩ := PtrPool.ptrPool_prefix_run (writer st).edgePool
        (es1.map PoolCall.getID)
      simp only [PtrPool.getPool]
      rw [← ht, List.length_append]
      exact Nat.le_add_right _ _
    · generalize (nodeLoop ops virtToJsonNode g.IDToNodeMap ops.jsonCreateMap st).2 = st1
        at hst1 hpool ⊢
      obtain ⟨es1, hes1, hin1⟩ := hst1
      obtain ⟨es2, hes2⟩ := stateAfter_usesGetEdgeID writer virtToJsonEdge he
        ((writer st1).edgePool.getPool) st1
      have hreach1 : (writer st1).edgePool.Reachable := by
        rw [hes1]
        exact GenericGraphWriter.afterEdgeIDs_reachable _ _ hs
      have hreach : (writer (stateAfter virtToJsonEdge (writer st1).edgePool.getPool
          st1)).edgePool.Reachable := by
        rw [hes2]
        exact GenericGraphWriter.afterEdgeIDs_reachable _ _ hreach1
      simp only at hpool ⊢
      intro node hnode n hn2 e hfield hne
      have hcalled : e ∈ es1 := hin1 node hnode n (by rw [hgraph]; exact hn2) e hfield
      have hmem1 : e ∈ (writer st1).edgePool.ptrPool := by
        rw [hes1]
        exact GenericGraphWriter.mem_afterEdgeIDs _ es1 hs e hne hcalled
      have hmem : e ∈ (writer (stateAfter virtToJsonEdge (writer st1).edgePool.getPool
          st1)).edgePool.ptrPool := by
        have hp2 : (writer (stateAfter virtToJsonEdge (writer st1).edgePool.getPool
            st1)).edgePool.ptrPool = (writer st1).edgePool.ptrPool := hpool
        rw [hp2]
        exact hmem1
      obtain ⟨k, _, hgk, hk1, hk2, hk3⟩ := hreach.inv.getID_of_mem hmem
      have hid : ((writer (stateAfter virtToJsonEdge (writer st1).edgePool.getPool
          st1)).getEdgeID e).1 = k := by
        simp only [GenericGraphWriter.getEdgeID, hgk]
      rw [hid]
      have hk2b : k ≤ (writer st1).edgePool.getPool.length := by
        rw [← hpool]
        exact hk2
      have hk3b : (writer st1).edgePool.getPool[k - 1]? = some e := by
        rw [← hpool]
        exact hk3
      have hlt : k - 1 < (writer st1).edgePool.getPool.length := by omega
      refine ⟨hk1, by rw [encodedItems_length]; exact hk2b, ?_⟩
      rw [hpool, encodedItems_getElem? _ _ _ (k - 1) hlt]
      have hel : (writer st1).edgePool.getPool[k - 1] = e := by
        rw [List.getElem?_eq_getElem hlt] at hk3b
        exact Option.some.inj hk3b
      rw [hel]

/-- Witness for C14 (amended): the writer constructed over `inOnlyEdgeGraph`;
the edge 200 of the incoming-edge list of node 101 has id 1 and the emitted
array has an entry at that position. -/
theorem SVFIRWriter.no_dangling_edge_refs_witness :
    GenericGraphWriter.construct inOnlyEdgeGraph = .ok inOnlyEdgeWriter ∧
    ReferencesEdgeFields (fun w : GenericGraphWriter => w) genericNodeEncoder ∧
    UsesGetEdgeID (fun w : GenericGraphWriter => w) addressEncoder ∧
    LeavesEdgePool (fun w : GenericGraphWriter => w) addressEncoder ∧
    ∃ (r : Json × GenericGraphWriter) (items : List Json),
      SVFIRWriter.genericGraphToJson pairArrayOps genericNodeEncoder addressEncoder
        inOnlyEdgeGraph (fun w => w.edgePool.getPool) inOnlyEdgeWriter = .ok r ∧
      r.1.field "edges" = some (Json.array items) ∧
      1 ≤ (r.2.getEdgeID 200).1 ∧ (r.2.getEdgeID 200).1 ≤ items.length := by
  obtain ⟨r, items, hr, h1, _, h3⟩ := SVFIRWriter.no_dangling_edge_refs pairArrayOps
    genericNodeEncoder addressEncoder (fun w : GenericGraphWriter => w) inOnlyEdgeGraph
    inOnlyEdgeWriter rfl genericNodeEncoder_references addressEncoder_uses
    addressEncoder_leaves
  obtain ⟨h4, h5, _⟩ := h3 101 (by decide) ⟨11, 0, [200], []⟩ rfl 200 (Or.inl (by decide))
    (by decide)
  exact ⟨rfl, genericNodeEncoder_references, addressEncoder_uses, addressEncoder_leaves,
    r, items, hr, h1, h4, h5⟩

end SVF
